import Mathlib

/-!
Verification of the hono-auto-docs discovery-and-merge pipeline.

The TypeScript sources are shallowly embedded: pure string manipulation is
translated to computable functions on `List Char` (with `String` wrappers),
file-system and ts-morph accesses are abstracted as explicit read-only
environment functions, and JavaScript truthiness on optional strings/arrays
is modelled explicitly.  Node's `path.posix` helpers (`join`, `normalize`,
`resolve`, `dirname`, `basename`), which the sources call, are embedded
following Node's documented semantics.
-/

namespace HonoDocs

/-- JavaScript truthiness of a `string | undefined` value: `undefined` and
the empty string are falsy. -/
def truthyStr : Option String → Bool
  | none => false
  | some s => s ≠ ""

/-- JavaScript truthiness of `arr && arr.length > 0` for an optional array. -/
def truthyList {α : Type} : Option (List α) → Bool
  | none => false
  | some l => !l.isEmpty

/-- Model of the JavaScript expression `a || b` on `string | undefined`
values: the left operand when truthy, otherwise the right operand. -/
def jsOrStr (a b : Option String) : Option String :=
  if truthyStr a then a else b

/-- Model of a JavaScript `Map.set` / object-property write on an ordered
association list: an existing key is updated in place (insertion order is
kept), a new key is appended. -/
def mapSet {α β : Type} [DecidableEq α] : List (α × β) → α → β → List (α × β)
  | [], k, v => [(k, v)]
  | (k', v') :: rest, k, v =>
    if k' = k then (k, v) :: rest else (k', v') :: mapSet rest k v

/-- Model of a JavaScript `Map.get` / object-property read. -/
def mapGet {α β : Type} [DecidableEq α] : List (α × β) → α → Option β
  | [], _ => none
  | (k', v') :: rest, k => if k' = k then some v' else mapGet rest k

/-- Split a character list on `'/'`, dropping empty segments (the segment
list that `path.posix.normalize` works on).  `cur` accumulates the segment
being read, in reverse. -/
def splitSlashAux : List Char → List Char → List (List Char)
  | cur, [] => if cur = [] then [] else [cur.reverse]
  | cur, '/' :: rest =>
    if cur = [] then splitSlashAux [] rest else cur.reverse :: splitSlashAux [] rest
  | cur, c :: rest => splitSlashAux (c :: cur) rest

def splitSlashChars (l : List Char) : List (List Char) :=
  splitSlashAux [] l

/-- Join segments with a single `'/'` between them. -/
def intercalateSlash : List (List Char) → List Char
  | [] => []
  | [s] => s
  | s :: rest => s ++ '/' :: intercalateSlash rest

/-- Resolution of `"."` and `".."` segments, as in Node's
`path.posix.normalize`: `"."` is dropped, `".."` pops a previous segment,
and above the start it is dropped for absolute paths and kept for relative
ones.  `stack` holds the processed segments in reverse. -/
def processDots (isAbs : Bool) : List (List Char) → List (List Char) → List (List Char)
  | stack, [] => stack.reverse
  | stack, seg :: rest =>
    if seg = ['.'] then processDots isAbs stack rest
    else if seg = ['.', '.'] then
      match stack with
      | top :: stack' =>
        if top = ['.', '.'] then processDots isAbs (seg :: top :: stack') rest
        else processDots isAbs stack' rest
      | [] => if isAbs then processDots isAbs [] rest else processDots isAbs [seg] rest
    else processDots isAbs (seg :: stack) rest

/-- Model of Node's `path.posix.normalize`: collapse repeated separators,
resolve `"."`/`".."`, keep one trailing separator when the input had one,
and return `"."` for an empty result on a relative path. -/
def posixNormalizeChars (l : List Char) : List Char :=
  if l = [] then ['.']
  else
    let isAbs := l.head? = some '/'
    let trailing := l.getLast? = some '/'
    let segs := processDots isAbs [] (splitSlashChars l)
    let core := (if isAbs then ['/'] else []) ++ intercalateSlash segs
    let core := if core = [] then ['.'] else core
    if trailing ∧ core.getLast? ≠ some '/' then core ++ ['/'] else core

/-- Model of Node's `path.posix.join` on two parts: empty parts are
skipped, the rest are joined with `'/'` and normalized. -/
def posixJoinChars (a b : List Char) : List Char :=
  let parts := [a, b].filter (· ≠ [])
  if parts = [] then ['.'] else posixNormalizeChars (intercalateSlash parts)

/-- Node's `path.posix.join(a, b)` on strings. -/
def posixJoin (a b : String) : String :=
  ⟨posixJoinChars a.data b.data⟩

/-- Node's `path.posix.join(a, b, c)` (used for the source-root
convention `path.join(rootPath, "src", importPath)`). -/
def posixJoin3 (a b c : String) : String :=
  let parts := [a.data, b.data, c.data].filter (· ≠ [])
  if parts = [] then "." else ⟨posixNormalizeChars (intercalateSlash parts)⟩

/-- Drop every trailing `'/'` (the JavaScript `replace(/\/+$/, "")`). -/
def stripTrailingSlashes (l : List Char) : List Char :=
  (l.reverse.dropWhile (· = '/')).reverse

/-- The prefix-joining step of the merge (part_003 lines 117-119, 142 and
148-150): `path.posix.join(a, b).replace(/\/+$/, "") || "/"`. -/
def joinAndCollapse (a b : String) : String :=
  let j := stripTrailingSlashes (posixJoinChars a.data b.data)
  if j = [] then "/" else ⟨j⟩

/-- Model of Node's `path.dirname` (posix) for the use in
`resolveImportPath`: the path up to the last separator. -/
def dirnameChars (l : List Char) : List Char :=
  let t := stripTrailingSlashes l
  let d := stripTrailingSlashes ((t.reverse.dropWhile (· ≠ '/')).reverse)
  if d = [] then (if l.head? = some '/' then ['/'] else ['.']) else d

/-- Model of Node's `path.basename` (posix): the final path component,
with trailing separators stripped first. -/
def basenameChars (l : List Char) : List Char :=
  let t := stripTrailingSlashes l
  (t.reverse.takeWhile (· ≠ '/')).reverse

def basename (s : String) : String := ⟨basenameChars s.data⟩

/-- Model of Node's `path.resolve(dir, p)` for a relative `p` against an
absolute `dir` (the only use in `resolveImportPath`): join, normalize and
drop any trailing separator. -/
def pathResolve (dir p : String) : String :=
  let n := stripTrailingSlashes (posixJoinChars dir.data p.data)
  if n = [] then "/" else ⟨n⟩

/-- Boolean test that `pat` occurs at the start of a character list. -/
def seqPrefixOf : List Char → List Char → Bool
  | [], _ => true
  | _ :: _, [] => false
  | p :: ps, c :: cs => p == c && seqPrefixOf ps cs

/-- Boolean substring test (the JavaScript `String.prototype.includes`). -/
def containsSeq (pat : List Char) : List Char → Bool
  | [] => pat.isEmpty
  | c :: cs => seqPrefixOf pat (c :: cs) || containsSeq pat cs

/-- JavaScript `String.prototype.startsWith` (also modelling ts-morph
text-prefix tests), implemented on the character lists so that concrete
instances evaluate inside the kernel. -/
def jsStartsWith (s pat : String) : Bool :=
  seqPrefixOf pat.data s.data

/-- JavaScript `String.prototype.endsWith` / the regex anchor `...$`. -/
def jsEndsWith (s pat : String) : Bool :=
  seqPrefixOf pat.data.reverse s.data.reverse

/-- JavaScript `String.prototype.toLowerCase` for the ASCII method names
occurring here. -/
def strToLower (s : String) : String :=
  ⟨s.data.map Char.toLower⟩

/-- JavaScript `String.prototype.trim` on a character list. -/
def trimChars (l : List Char) : List Char :=
  ((l.dropWhile Char.isWhitespace).reverse.dropWhile Char.isWhitespace).reverse

def trimStr (s : String) : String := ⟨trimChars s.data⟩

/-- Split on `','` keeping empty fields (the JavaScript `split(",")`). -/
def splitCommaAux : List Char → List Char → List (List Char)
  | cur, [] => [cur.reverse]
  | cur, ',' :: rest => cur.reverse :: splitCommaAux [] rest
  | cur, c :: rest => splitCommaAux (c :: cur) rest

/-- The category-list value processing shared by both extractors:
`split(",").map(t => t.trim()).filter(t => t.length > 0)`. -/
def splitTrimFilter (s : String) : List String :=
  (((splitCommaAux [] s.data).map trimChars).filter (fun w => !w.isEmpty)).map
    (fun w => (⟨w⟩ : String))

/-- One JSDoc tag as surfaced by ts-morph's structured accessor: its tag
name and the result of `getComment()` (a string, or `undefined` modelled as
`none`; ts-morph's comment-part arrays are modelled by their joined text,
matching the `comment.map(c => c.getText()).join("")` branch). -/
structure JsTag where
  tagName : String
  comment : Option String := none
deriving DecidableEq, Repr

/-- One JSDoc block: the main description text (`getDescription()`) and the
ordered tag list (`getTags()`). -/
structure JsDocBlock where
  description : String := ""
  tags : List JsTag := []
deriving DecidableEq, Repr

/-- The handler-level metadata record of `extractJsDoc.ts`. -/
structure JsDocMetadata where
  summary : Option String := none
  description : Option String := none
  tags : Option (List String) := none
deriving DecidableEq, Repr

/-- Embedding of `parseJsDocTags` (part_001 lines 122-160): the main
comment text becomes the description when non-blank; then the first
`@summary`, `@description` and `@tags` tags found in the tag list are read,
`@description` overriding the main text and `@tags` being split on commas,
trimmed and filtered of empties. -/
def parseJsDocTags (jsDoc : JsDocBlock) : JsDocMetadata :=
  let md : JsDocMetadata := {}
  let md :=
    if jsDoc.description ≠ "" ∧ trimStr jsDoc.description ≠ "" then
      { md with description := some (trimStr jsDoc.description) }
    else md
  let md :=
    match jsDoc.tags.find? (fun t => t.tagName = "summary") with
    | some t => { md with summary := t.comment }
    | none => md
  let md :=
    match jsDoc.tags.find? (fun t => t.tagName = "description") with
    | some t => { md with description := t.comment }
    | none => md
  match jsDoc.tags.find? (fun t => t.tagName = "tags") with
  | some t =>
    match t.comment with
    | some s => if s ≠ "" then { md with tags := some (splitTrimFilter s) } else md
    | none => md
  | none => md

/-- An import declaration of a source file: the named imports and the
module specifier string. -/
structure ImportDecl where
  namedImports : List String
  moduleSpecifier : String
deriving DecidableEq, Repr

/-- A call expression as read off the syntax tree: the callee expression's
text and the argument texts, in order. -/
structure ChainCall where
  calleeText : String
  argTexts : List String
deriving DecidableEq, Repr

/-- A variable declaration with its initializer's text, the JSDoc blocks of
its enclosing variable statement, and the call expressions that are
descendants of its initializer. -/
structure VarDecl where
  varName : String
  initText : String := ""
  jsDocs : List JsDocBlock := []
  initCalls : List ChainCall := []
deriving DecidableEq, Repr

/-- A parsed source file as queried through ts-morph: its variable
declarations, its import declarations, and every call expression in the
file (in lexical order). -/
structure SourceFileModel where
  varDecls : List VarDecl := []
  imports : List ImportDecl := []
  fileCalls : List ChainCall := []
deriving DecidableEq, Repr

/-- The module-level metadata of `normalizeApiGroup.ts`.  The source fields
are `prefix` and `name`; they are renamed `prefixVal`/`nameVal` here
because `prefix` is reserved in Lean. -/
structure RouteMetadata where
  prefixVal : Option String := none
  nameVal : Option String := none
deriving DecidableEq, Repr

/-- Embedding of `extractRouteMetadata` (normalizeApiGroup.ts lines 9-52):
take the first variable declaration whose initializer text contains
`"Hono()"`, read the first JSDoc block of its statement, and return the
comments of the first `@prefix` and `@name` tags. -/
def extractRouteMetadata (sf : SourceFileModel) : RouteMetadata :=
  match sf.varDecls.filter (fun d => containsSeq "Hono()".data d.initText.data) with
  | [] => {}
  | appExport :: _ =>
    match appExport.jsDocs with
    | [] => {}
    | jsDoc :: _ =>
      { prefixVal := (jsDoc.tags.find? (fun t => t.tagName = "prefix")).bind (·.comment)
        nameVal := (jsDoc.tags.find? (fun t => t.tagName = "name")).bind (·.comment) }

/-- Strip a final `".ts"` or `".js"` (the `replace(/\.(ts|js)$/, "")`). -/
def stripExtChars (l : List Char) : List Char :=
  match l.reverse with
  | 's' :: 't' :: '.' :: rest => rest.reverse
  | 's' :: 'j' :: '.' :: rest => rest.reverse
  | _ => l

/-- Split on hyphens, underscores and before upper-case letters (the
JavaScript `split(/[-_]|(?=[A-Z])/)`); `cur` holds the word being read, in
reverse. -/
def splitWordsAux : List Char → List Char → List (List Char)
  | cur, [] => [cur.reverse]
  | cur, c :: cs =>
    if c = '-' ∨ c = '_' then cur.reverse :: splitWordsAux [] cs
    else if c.isUpper then cur.reverse :: splitWordsAux [c] cs
    else splitWordsAux (c :: cur) cs

/-- JavaScript `word.charAt(0).toUpperCase() + word.slice(1).toLowerCase()`. -/
def capitalizeWord : List Char → List Char
  | [] => []
  | c :: cs => c.toUpper :: cs.map Char.toLower

def joinSpace : List (List Char) → List Char
  | [] => []
  | [w] => w
  | w :: ws => w ++ ' ' :: joinSpace ws

/-- Embedding of `generateNameFromFilename` (normalizeApiGroup.ts lines
61-74): strip the extension, split on hyphen/underscore/camel boundaries,
drop empty words, capitalize each word, join with spaces. -/
def generateNameFromFilename (filename : String) : String :=
  let words := (splitWordsAux [] (stripExtChars filename.data)).filter (fun w => !w.isEmpty)
  ⟨joinSpace (words.map capitalizeWord)⟩

/-- Embedding of `generatePrefixFromFilename` (normalizeApiGroup.ts lines
82-85). -/
def generatePrefixFromFilename (filename : String) : String :=
  ⟨'/' :: stripExtChars filename.data⟩

/-- One configuration-supplied operation override, as consumed by
`runGenerate` (fields `api`, `method`, `summary`, `description`, `tag`). -/
structure CustomApi where
  api : String
  method : String
  summary : Option String := none
  description : Option String := none
  tag : Option (List String) := none
deriving DecidableEq, Repr

/-- A route group (the `ApiGroup` of src/types).  The declared type has
fields `apiPrefix`, `appTypePath`, `name`; `runGenerate` additionally reads
an optional `api` list of overrides from it, modelled here as well. -/
structure ApiGroup where
  apiPrefix : String := ""
  appTypePath : String
  name : String := ""
  api : Option (List CustomApi) := none
deriving DecidableEq, Repr

/-- JavaScript `a || b` where `a : string | undefined` and `b : string`. -/
def jsOrElse (a : Option String) (b : String) : String :=
  if truthyStr a then a.getD "" else b

/-- Embedding of `normalizeApiGroup` (normalizeApiGroup.ts lines 99-138).
The ts-morph project is abstracted as the read-only map `files` from
absolute path to parsed file; `getSourceFile || addSourceFileAtPath` is its
lookup. -/
def normalizeApiGroup (api : String ⊕ ApiGroup)
    (files : String → Option SourceFileModel) (rootPath : String) : ApiGroup :=
  match api with
  | Sum.inr g =>
    if g.name ≠ "" then g
    else
      let md := match files (posixJoin rootPath g.appTypePath) with
        | some sf => extractRouteMetadata sf
        | none => {}
      { g with name := jsOrElse md.nameVal (generateNameFromFilename (basename g.appTypePath)) }
  | Sum.inl s =>
    let md := match files (posixJoin rootPath s) with
      | some sf => extractRouteMetadata sf
      | none => {}
    { appTypePath := s
      apiPrefix := jsOrElse md.prefixVal (generatePrefixFromFilename (basename s))
      name := jsOrElse md.nameVal (generateNameFromFilename (basename s))
      api := none }

/-- Run-collapsing pass for `sanitizeApiPrefix`; the flag records whether
the previous character already produced a separator. -/
def sanitizeAux : Bool → List Char → List Char
  | _, [] => []
  | inSep, c :: cs =>
    if c.isAlphanum then c :: sanitizeAux false cs
    else if inSep then sanitizeAux true cs
    else '-' :: sanitizeAux true cs

/-- Modelled from the spec: `sanitizeApiPrefix` (src/utils/format, not
among the provided sources) derives the per-group artifact file name from
the group's URL prefix by collapsing every run of non-alphanumeric
characters into a single separator. -/
def sanitizeApiPrefix (s : String) : String :=
  ⟨sanitizeAux false s.data⟩

/-- The path-mapping part of a parsed tsconfig (`compilerOptions.baseUrl`
and `compilerOptions.paths`, in declaration order). -/
structure TsConfigModel where
  baseUrl : Option String := none
  pathsMap : Option (List (String × List String)) := none
deriving Repr

/-- Read-only environment for import resolution: `fsExists` models
`fs.existsSync`, and `tsConfigs` models `loadTsConfig` (reading and parsing
a tsconfig file; `none` covers both a read failure and a parse failure). -/
structure ResolveEnv where
  fsExists : String → Bool := fun _ => false
  tsConfigs : String → Option TsConfigModel := fun _ => none

/-- Boolean test that `pat` occurs at the end of a character list. -/
def seqSuffixOf (pat l : List Char) : Bool :=
  seqPrefixOf pat.reverse l.reverse

/-- Split an alias pattern at its first `'*'`. -/
def splitAtStarAux : List Char → List Char → Option (List Char × List Char)
  | _, [] => none
  | acc, '*' :: rest => some (acc.reverse, rest)
  | acc, c :: rest => splitAtStarAux (c :: acc) rest

/-- Match an import specifier against one alias pattern, as the regex built
by `alias.replace(/\*/g, "(.*)")` does for the patterns the spec admits
(at most one wildcard): on success return the text captured by the
wildcard (`""` for a wildcard-free pattern, matching `match[1] || ""`). -/
def matchAlias (pat imp : List Char) : Option (List Char) :=
  match splitAtStarAux [] pat with
  | none => if pat = imp then some [] else none
  | some (pre, suf) =>
    if seqPrefixOf pre imp ∧ seqSuffixOf suf imp ∧ pre.length + suf.length ≤ imp.length then
      some ((imp.drop pre.length).take (imp.length - pre.length - suf.length))
    else none

/-- Substitute the captured text for every `'*'` of a target pattern
(`target.replace(/\*/g, match[1] || "")`). -/
def replaceStars (cap : List Char) : List Char → List Char
  | [] => []
  | '*' :: rest => cap ++ replaceStars cap rest
  | c :: rest => c :: replaceStars cap rest

/-- Probe one alias target: first the path with `".ts"` appended, then the
literal path. -/
def aliasTargetLoop (env : ResolveEnv) (base : String) (cap : List Char) :
    List String → Option String
  | [] => none
  | target :: rest =>
    let fullPath := posixJoin base ⟨replaceStars cap target.data⟩
    if env.fsExists (fullPath ++ ".ts") then some (fullPath ++ ".ts")
    else if env.fsExists fullPath then some fullPath
    else aliasTargetLoop env base cap rest

/-- Embedding of `resolvePathAlias` (part_001 lines 409-441 / part_002
lines 194-226): walk the alias table in declaration order; for the first
pattern that matches, try each target in order with the captured wildcard
substituted, probing extension-then-literal. -/
def resolvePathAlias (importPath : String) (pathsMap : List (String × List String))
    (rootPath : String) (baseUrl : Option String) (env : ResolveEnv) : Option String :=
  let base := match baseUrl with
    | some b => posixJoin rootPath b
    | none => rootPath
  aliasLoop base pathsMap
where
  aliasLoop (base : String) : List (String × List String) → Option String
    | [] => none
    | (pat, targets) :: rest =>
      match matchAlias pat.data importPath.data with
      | some cap =>
        match aliasTargetLoop env base cap targets with
        | some r => some r
        | none => aliasLoop base rest
      | none => aliasLoop base rest

/-- Embedding of `resolveImportPath` (part_001 lines 338-383 / part_002
lines 123-168): relative specifiers are resolved against the referencing
file's directory, probing the `".ts"`-extended path and then the literal
path; otherwise an alias table from the tsconfig is consulted for `"~"`/
`"@"` specifiers; otherwise the specifier is rooted under `rootPath/src`
with the same extension-then-literal probing.  Failure is the value
`none`, never an exception. -/
def resolveImportPath (currentFilePath importPath rootPath : String)
    (tsConfigPath : Option String) (env : ResolveEnv) : Option String :=
  if jsStartsWith importPath "." then
    let dir : String := ⟨dirnameChars currentFilePath.data⟩
    let resolved := pathResolve dir importPath
    if env.fsExists (resolved ++ ".ts") then some (resolved ++ ".ts")
    else if env.fsExists resolved then some resolved
    else none
  else
    let aliasRes :=
      match tsConfigPath with
      | some tcp =>
        if jsStartsWith importPath "~" ∨ jsStartsWith importPath "@" then
          match env.tsConfigs tcp with
          | some tc =>
            match tc.pathsMap with
            | some ps => resolvePathAlias importPath ps rootPath tc.baseUrl env
            | none => none
          | none => none
        else none
      | none => none
    match aliasRes with
    | some r => some r
    | none =>
      let srcPath := posixJoin3 rootPath "src" importPath
      if env.fsExists (srcPath ++ ".ts") then some (srcPath ++ ".ts")
      else if env.fsExists srcPath then some srcPath
      else none

/-- Environment for discovery: import resolution plus the ts-morph project
file index (`getSourceFile` / `addSourceFileAtPath`, absence modelled as
`none`). -/
structure DiscoverEnv extends ResolveEnv where
  files : String → Option SourceFileModel := fun _ => none

/-- Source files of this model carry their own absolute path
(`sourceFile.getFilePath()`), supplied alongside the parsed content. -/
structure LocatedFile where
  filePath : String
  content : SourceFileModel
deriving Repr

/-- Embedding of `traceHandlerImport` (part_001 lines 308-332): the
first import declaration whose named imports include the handler name
gives the specifier, which is resolved with `resolveImportPath`. -/
def traceHandlerImport (sf : LocatedFile) (handlerName rootPath : String)
    (tsConfigPath : Option String) (env : ResolveEnv) : Option String :=
  match sf.content.imports.find? (fun d => d.namedImports.contains handlerName) with
  | none => none
  | some d => resolveImportPath sf.filePath d.moduleSpecifier rootPath tsConfigPath env

/-- Embedding of `extractJsDocFromHandler` (extractJsDoc.ts lines 15-38 /
part_001 lines 94-117): the first JSDoc block on the named exported
variable's statement, parsed with `parseJsDocTags`. -/
def extractJsDocFromHandler (sf : SourceFileModel) (handlerName : String) :
    Option JsDocMetadata :=
  match sf.varDecls.find? (fun d => d.varName = handlerName) with
  | none => none
  | some decl =>
    match decl.jsDocs with
    | [] => none
    | j :: _ => some (parseJsDocTags j)

/-- The per-handler record accumulated by `discoverHandlersFromRoute`. -/
structure HandlerMetadata where
  path : String
  method : String
  summary : Option String := none
  description : Option String := none
  tags : Option (List String) := none
deriving DecidableEq, Repr

/-- The HTTP methods recognized by the chain parser, in the order of the
regex alternation `\.(get|post|put|patch|delete)$`. -/
def httpMethods : List String := ["get", "post", "put", "patch", "delete"]

/-- The method a chained call's callee text selects, if any. -/
def methodOf (calleeText : String) : Option String :=
  httpMethods.find? (fun m => jsEndsWith calleeText ("." ++ m))

/-- Strip every single and double quote (`replace(/['"]/g, "")`). -/
def stripQuotes (l : List Char) : List Char :=
  l.filter (fun c => c ≠ '\'' ∧ c ≠ '"')

/-- Path normalization of the chain parser (part_001 lines 252-257): other
than for `"/"` itself, strip leading and trailing slashes and re-add a
single leading slash, an emptied path becoming `"/"`. -/
def normalizeRoutePath (s : String) : String :=
  if s = "/" then s
  else
    let t := stripTrailingSlashes (s.data.dropWhile (· = '/'))
    if t = [] then "/" else ⟨'/' :: t⟩

/-- Embedding of one iteration of the loop in `parseMethodChain` (part_001
lines 235-302): a call contributes an entry exactly when its callee ends in
a recognized method, it has at least one argument, at least one argument is
a spread, the first spread's handler name traces to a resolvable import,
the handler's file is in the project (directly or with `".ts"` appended;
`addSourceFileAtPath`'s throw on a missing file is modelled as absence),
and that file yields a JSDoc block for the handler. -/
def processCall (sf : LocatedFile) (rootPath : String) (tsConfigPath : Option String)
    (env : DiscoverEnv) (call : ChainCall) : Option (String × HandlerMetadata) :=
  match methodOf call.calleeText with
  | none => none
  | some method =>
    match call.argTexts with
    | [] => none
    | pathArg :: _ =>
      let routePath := normalizeRoutePath ⟨stripQuotes pathArg.data⟩
      match call.argTexts.filter (fun a => jsStartsWith a "...") with
      | [] => none
      | sp :: _ =>
        let handlerName : String := ⟨sp.data.drop 3⟩
        match traceHandlerImport sf handlerName rootPath tsConfigPath env.toResolveEnv with
        | none => none
        | some handlerSourcePath =>
          let handlerFile :=
            match env.files handlerSourcePath with
            | some f => some f
            | none =>
              let withExt :=
                if jsEndsWith handlerSourcePath ".ts" then handlerSourcePath
                else handlerSourcePath ++ ".ts"
              env.files withExt
          match handlerFile with
          | none => none
          | some hf =>
            match extractJsDocFromHandler hf handlerName with
            | none => none
            | some jsDocMeta =>
              some (method ++ " " ++ routePath,
                { path := routePath, method := method, summary := jsDocMeta.summary,
                  description := jsDocMeta.description, tags := jsDocMeta.tags })

/-- Embedding of `parseMethodChain` (part_001 lines 224-303): fold the
chain's call expressions over the metadata map, inserting the entry of
each qualifying call. -/
def parseMethodChain (sf : LocatedFile) (rootPath : String) (tsConfigPath : Option String)
    (env : DiscoverEnv) (m0 : List (String × HandlerMetadata)) (calls : List ChainCall) :
    List (String × HandlerMetadata) :=
  calls.foldl
    (fun m call =>
      match processCall sf rootPath tsConfigPath env call with
      | some (k, v) => mapSet m k v
      | none => m)
    m0

/-- Embedding of `discoverHandlersFromRoute` (part_001 lines 180-219): for
each variable whose initializer mentions `"Hono()"`, parse its builder
chain into the shared metadata map; a route file absent from the project
yields the empty map. -/
def discoverHandlersFromRoute (env : DiscoverEnv) (routeFilePath rootPath : String)
    (tsConfigPath : Option String) : List (String × HandlerMetadata) :=
  match env.files routeFilePath with
  | none => []
  | some sf =>
    let appExports := sf.varDecls.filter (fun d => containsSeq "Hono()".data d.initText.data)
    appExports.foldl
      (fun m d =>
        parseMethodChain ⟨routeFilePath, sf⟩ rootPath tsConfigPath env m d.initCalls)
      []

/-- A raw discovered group: the mount prefix (source field `prefix`,
renamed for Lean) and the mounted identifier's text. -/
structure DiscoveredRoute where
  routePrefix : String
  appName : String
deriving DecidableEq, Repr

/-- Embedding of `extractRouteCalls` (part_002 lines 60-88): the call
expressions whose callee text ends in `".route"` and that carry at least
two arguments, in lexical order; the first argument with quotes stripped
is the prefix, the second's text the mounted identifier. -/
def extractRouteCalls (sf : SourceFileModel) : List DiscoveredRoute :=
  sf.fileCalls.filterMap (fun call =>
    if jsEndsWith call.calleeText ".route" then
      match call.argTexts with
      | p :: a :: _ => some { routePrefix := ⟨stripQuotes p.data⟩, appName := a }
      | _ => none
    else none)

/-- Embedding of `resolveRouteImport` (part_002 lines 93-117); textually
the same algorithm as `traceHandlerImport`. -/
def resolveRouteImport (sf : LocatedFile) (appName rootPath : String)
    (tsConfigPath : Option String) (env : ResolveEnv) : Option String :=
  match sf.content.imports.find? (fun d => d.namedImports.contains appName) with
  | none => none
  | some d => resolveImportPath sf.filePath d.moduleSpecifier rootPath tsConfigPath env

/-- Node's `path.relative(root, p)` restricted to the exercised case of a
path lying under the root directory. -/
def pathRelative (rootPath p : String) : String :=
  if jsStartsWith p (rootPath ++ "/") then ⟨p.data.drop (rootPath.length + 1)⟩ else p

/-- Embedding of `discoverRoutesFromApp` (part_002 lines 21-55): read the
entry module (its absence makes the run throw, modelled as `none`), list
its `.route()` calls in order, resolve each mounted identifier's import,
and emit a group with an empty name for each resolvable one — unresolved
mounts are dropped silently. -/
def discoverRoutesFromApp (env : DiscoverEnv) (appPath rootPath : String)
    (tsConfigPath : Option String) : Option (List ApiGroup) :=
  let fullAppPath := posixJoin rootPath appPath
  match env.files fullAppPath with
  | none => none
  | some sf =>
    some ((extractRouteCalls sf).filterMap (fun r =>
      match resolveRouteImport ⟨fullAppPath, sf⟩ r.appName rootPath tsConfigPath env.toResolveEnv with
      | some fp =>
        some { apiPrefix := r.routePrefix, appTypePath := pathRelative rootPath fp,
               name := "", api := none }
      | none => none))

/-- Left and right curly brace characters of the canonical parameter
syntax. -/
def bracketOpen : Char := '\x7b'

def bracketClose : Char := '\x7d'

def isIdentStart (c : Char) : Bool := c.isAlpha || c = '_'

def isIdentChar (c : Char) : Bool := c.isAlphanum || c = '_'

/-- Scanner for `replace(/:([a-zA-Z_][a-zA-Z0-9_]*)/g, "{$1}")` (part_003
line 141).  The flag records that a parameter name is being copied and its
closing bracket is still owed. -/
def rewriteParamsAux : Bool → List Char → List Char
  | true, [] => [bracketClose]
  | false, [] => []
  | true, c :: cs =>
    if isIdentChar c then c :: rewriteParamsAux true cs
    else
      bracketClose ::
        (if c = ':' then
          match cs with
          | [] => [':']
          | d :: ds =>
            if isIdentStart d then bracketOpen :: d :: rewriteParamsAux true ds
            else ':' :: rewriteParamsAux false (d :: ds)
        else c :: rewriteParamsAux false cs)
  | false, c :: cs =>
    if c = ':' then
      match cs with
      | [] => [':']
      | d :: ds =>
        if isIdentStart d then bracketOpen :: d :: rewriteParamsAux true ds
        else ':' :: rewriteParamsAux false (d :: ds)
    else c :: rewriteParamsAux false cs

/-- Rewrite every colon-prefixed parameter token to bracket syntax. -/
def rewriteParams (s : String) : String :=
  ⟨rewriteParamsAux false s.data⟩

/-- An operation object of a fragment, restricted to the metadata fields
the merge manipulates (its other fields are carried through unchanged by
the code and are not modelled). -/
structure Operation where
  summary : Option String := none
  description : Option String := none
  tags : Option (List String) := none
deriving DecidableEq, Repr

/-- The JSDoc application step (part_003 lines 165-171): non-empty summary
and description fall back to the operation's own, a non-empty tag list
replaces the operation's. -/
def applyJsDocMeta (op : Operation) (m : HandlerMetadata) : Operation :=
  { summary := jsOrStr m.summary op.summary
    description := jsOrStr m.description op.description
    tags := if truthyList m.tags then m.tags else op.tags }

/-- The override application step (part_003 lines 174-182): same non-empty
rule, reading the override's `tag` field. -/
def applyCustomApi (op : Operation) (c : CustomApi) : Operation :=
  { summary := jsOrStr c.summary op.summary
    description := jsOrStr c.description op.description
    tags := if truthyList c.tag then c.tag else op.tags }

/-- The three-tier priority application (part_003 lines 159-182): the
fragment's own fields, then the JSDoc fields when a JSDoc entry exists,
then the override fields when an override exists. -/
def priorityApply (op : Operation) (jsDocMeta : Option HandlerMetadata)
    (customApi : Option CustomApi) : Operation :=
  let op := match jsDocMeta with
    | some m => applyJsDocMeta op m
    | none => op
  match customApi with
  | some c => applyCustomApi op c
  | none => op

/-- Tag reconciliation (part_003 lines 184-189): a missing or empty tag
list becomes the group name; otherwise the group name is appended when not
already present. -/
def ensureTags (op : Operation) (groupName : String) : Operation :=
  match op.tags with
  | none => { op with tags := some [groupName] }
  | some l =>
    if l.isEmpty then { op with tags := some [groupName] }
    else if groupName ∈ l then op
    else { op with tags := some (l ++ [groupName]) }

/-- Modelled from the spec: `cleanDefaultResponse` (src/utils/format, not
among the provided sources) is the boundary cleanup of the default-response
shape; it does not touch the summary, description or tag fields, which are
the only operation fields modelled here, so it acts as the identity. -/
def cleanDefaultResponse (op : Operation) : Operation := op

/-- The full per-operation merge (part_003 lines 159-191). -/
def mergeOperation (op : Operation) (jsDocMeta : Option HandlerMetadata)
    (customApi : Option CustomApi) (groupName : String) : Operation :=
  cleanDefaultResponse (ensureTags (priorityApply op jsDocMeta customApi) groupName)

/-- JavaScript `key.split(" ", 2)` into its two fields (the keys produced
by the discoverer always contain exactly one space; a spaceless key is
given an empty second field). -/
def splitSpace2 (s : String) : String × String :=
  let m := s.data.takeWhile (· ≠ ' ')
  match s.data.dropWhile (· ≠ ' ') with
  | ' ' :: r => (⟨m⟩, ⟨r.takeWhile (· ≠ ' ')⟩)
  | _ => (⟨m⟩, "")

/-- Remapping of one discovered key (part_003 lines 139-143): split into
method and path, rewrite colon parameters to brackets, join with the group
prefix and collapse. -/
def remapJsDocKey (apiPrefix key : String) : String :=
  let (method, routePath) := splitSpace2 key
  let normalizedPath := rewriteParams routePath
  let prefixedPath := joinAndCollapse apiPrefix normalizedPath
  method ++ " " ++ prefixedPath

/-- Remapping of the whole discovered map (part_003 lines 136-145). -/
def remapJsDocMap (apiPrefix : String) (raw : List (String × HandlerMetadata)) :
    List (String × HandlerMetadata) :=
  raw.foldl (fun m kv => mapSet m (remapJsDocKey apiPrefix kv.1) kv.2) []

/-- The override lookup (part_003 lines 112-125): overrides keyed by
lower-cased method and prefixed, collapse-joined path. -/
def buildCustomApiMap (g : ApiGroup) : List (String × CustomApi) :=
  match g.api with
  | none => []
  | some l =>
    l.foldl (fun m c =>
      mapSet m (strToLower c.method ++ " " ++ joinAndCollapse g.apiPrefix c.api) c) []

/-- A per-group fragment file: its `paths` object, a mapping from path to
a mapping from method to operation, in insertion order. -/
structure Fragment where
  paths : List (String × List (String × Operation)) := []
deriving DecidableEq, Repr

/-- The accumulating merged document: the tag names pushed so far (each
entry standing for `{ name: ... }`) and the `paths` mapping. -/
structure MergedDoc where
  tags : List String := []
  paths : List (String × List (String × Operation)) := []
deriving DecidableEq, Repr

/-- The per-fragment path loop (part_003 lines 148-194). -/
def mergeFragmentPaths (doc : MergedDoc) (g : ApiGroup)
    (customApiMap : List (String × CustomApi)) (jsDocMap : List (String × HandlerMetadata))
    (frag : Fragment) : MergedDoc :=
  frag.paths.foldl
    (fun doc pe =>
      let prefixedPath := joinAndCollapse g.apiPrefix pe.1
      let doc :=
        if (mapGet doc.paths prefixedPath).isNone then
          { doc with paths := mapSet doc.paths prefixedPath [] }
        else doc
      pe.2.foldl
        (fun doc me =>
          let opKey := strToLower me.1 ++ " " ++ prefixedPath
          let operation := mergeOperation me.2 (mapGet jsDocMap opKey) (mapGet customApiMap opKey) g.name
          let slot := (mapGet doc.paths prefixedPath).getD []
          { doc with paths := mapSet doc.paths prefixedPath (mapSet slot me.1 operation) })
        doc)
    doc

/-- Environment for the merge: discovery plus the on-disk per-group
fragment store, keyed by the sanitized prefix the generators used to name
the file.  `fragExists` models the `fs.existsSync` probe on the fragment
file; `fragParse` models `JSON.parse(fs.readFileSync(file, "utf-8"))` on
it, with `none` standing for the exception `JSON.parse` throws on
malformed content (consulted only when the file exists). -/
structure MergeEnv extends DiscoverEnv where
  fragExists : String → Bool := fun _ => false
  fragParse : String → Option Fragment := fun _ => none

/-- The per-group body of the merge loop (part_003 lines 100-195): a
missing fragment file (line 104, `if (!fs.existsSync(...)) continue`)
logs a warning and skips the group entirely — including the tag push,
which the code performs only after the existence check; a present file is
read and parsed (line 109), and a parse failure throws, aborting the
whole run (`none`); on success the tag is pushed (line 110) and the
fragment's operations are merged. -/
def mergeGroup (env : MergeEnv) (rootPath : String) (tsConfigPath : Option String)
    (doc : MergedDoc) (g : ApiGroup) : Option MergedDoc :=
  if env.fragExists (sanitizeApiPrefix g.apiPrefix) = false then
    some doc
  else
    match env.fragParse (sanitizeApiPrefix g.apiPrefix) with
    | none => none
    | some json =>
      let doc := { doc with tags := doc.tags ++ [g.name] }
      let customApiMap := buildCustomApiMap g
      let jsDocMapRaw :=
        discoverHandlersFromRoute env.toDiscoverEnv (posixJoin rootPath g.appTypePath) rootPath tsConfigPath
      let jsDocMap := remapJsDocMap g.apiPrefix jsDocMapRaw
      some (mergeFragmentPaths doc g customApiMap jsDocMap json)

/-- The merge loop over the remaining groups, threading the accumulated
document; a `none` from a group (its present fragment failed to parse)
propagates out, as the uncaught exception does. -/
def runMergeAux (env : MergeEnv) (rootPath : String) (tsConfigPath : Option String) :
    MergedDoc → List ApiGroup → Option MergedDoc
  | doc, [] => some doc
  | doc, g :: gs =>
    (mergeGroup env rootPath tsConfigPath doc g).bind
      (fun doc2 => runMergeAux env rootPath tsConfigPath doc2 gs)

/-- The whole merge loop over the normalized groups, in order: `some` of
the merged document when every present fragment file parses, `none` when
one of them fails to parse (the run aborts). -/
def runMerge (env : MergeEnv) (rootPath : String) (tsConfigPath : Option String)
    (groups : List ApiGroup) : Option MergedDoc :=
  runMergeAux env rootPath tsConfigPath {} groups

/-- The configuration fields `runGenerate` consults before and during
discovery (src/types `HonoDocsConfig`, static header and output fields
omitted as they are copied verbatim). -/
structure HonoDocsConfig where
  tsConfigPath : String := "tsconfig.json"
  appPath : Option String := none
  apis : Option (List String) := none
deriving Repr

/-- Embedding of the two fatal configuration checks of `runGenerate`
(part_003 lines 33-43), with JavaScript truthiness: `appPath` counts as
set when it is a non-empty string, `apis` when the array is present (even
empty). -/
def configValidationError (cfg : HonoDocsConfig) : Option String :=
  if truthyStr cfg.appPath ∧ cfg.apis.isSome then
    some "Config error: cannot use both appPath and apis."
  else if ¬truthyStr cfg.appPath ∧ cfg.apis.isNone then
    some "Config error: must provide either appPath or apis."
  else none

/-- The observable steps of one `runGenerate` run, in program order. -/
inductive GenEvent where
  | readConfigFile
  | initProject
  | configErrorBoth
  | configErrorNeither
  | readEntryModule
  | entryLoadError
  | generateTypesFor (g : String)
  | generateOpenApiFor (g : String)
  | checkFragment (g : String)
  | readFragment (g : String)
  | writeOutput
deriving DecidableEq, Repr

/-- Whether an event reads or writes the file system: loading the config
file, constructing the ts-morph project from a tsconfig, reading the entry
module, running the per-group generators, probing and reading fragment
files, and writing the output all do; the two validation failures and the
entry-load failure are pure control events. -/
def isDiskAccess : GenEvent → Bool
  | .configErrorBoth | .configErrorNeither | .entryLoadError => false
  | _ => true

/-- Discovery, generation and merge events of a validated run whose
present fragment files all parse, in order (part_003 lines 46-195); a
fragment file is read (`readFragment`) exactly when the existence probe
succeeds, since `readFileSync` runs before `JSON.parse`. -/
def pipelineEvents (env : MergeEnv) (groups : List ApiGroup) : List GenEvent :=
  (groups.flatMap fun g =>
    [GenEvent.generateTypesFor (sanitizeApiPrefix g.apiPrefix),
     GenEvent.generateOpenApiFor (sanitizeApiPrefix g.apiPrefix)]) ++
  (groups.flatMap fun g =>
    GenEvent.checkFragment (sanitizeApiPrefix g.apiPrefix) ::
      (if env.fragExists (sanitizeApiPrefix g.apiPrefix) then
        [GenEvent.readFragment (sanitizeApiPrefix g.apiPrefix)]
      else [])) ++
  [GenEvent.writeOutput]

/-- Event trace of `runGenerate` (part_003 lines 14-203): the config file
is loaded and the ts-morph project is constructed from the tsconfig before
the two fatal configuration-shape checks run; only then do discovery,
normalization, generation, merge and the final write happen. -/
def runGenerateEvents (cfg : HonoDocsConfig) (env : MergeEnv) (rootPath : String) :
    List GenEvent :=
  [GenEvent.readConfigFile, GenEvent.initProject] ++
  (if truthyStr cfg.appPath ∧ cfg.apis.isSome then [GenEvent.configErrorBoth]
   else if ¬truthyStr cfg.appPath ∧ cfg.apis.isNone then [GenEvent.configErrorNeither]
   else if truthyStr cfg.appPath then
    GenEvent.readEntryModule ::
      (match discoverRoutesFromApp env.toDiscoverEnv (cfg.appPath.getD "") rootPath
          (some cfg.tsConfigPath) with
       | none => [GenEvent.entryLoadError]
       | some routes =>
         pipelineEvents env (routes.map fun r => normalizeApiGroup (Sum.inr r) env.files rootPath))
   else
    pipelineEvents env
      ((cfg.apis.getD []).map fun s => normalizeApiGroup (Sum.inl s) env.files rootPath))


/-- Two consecutive separator characters somewhere in the list. -/
def hasDoubleSlash : List Char → Bool
  | [] => false
  | [_] => false
  | a :: b :: rest => (a == '/' && b == '/') || hasDoubleSlash (b :: rest)

/-- The canonical spelling of a path: optional leading separator followed
by its non-empty segments joined by single separators. -/
def canonicalOf (l : List Char) : List Char :=
  (if l.head? = some '/' then ['/'] else []) ++ intercalateSlash (splitSlashChars l)

/-- A group prefix in the normal form the data model prescribes: non-empty,
equal to its own canonical respelling (no doubled or trailing separator),
and free of `"."`/`".."` segments. -/
def CanonicalPath (p : String) : Prop :=
  p.data ≠ [] ∧ p.data = canonicalOf p.data
    ∧ ∀ seg ∈ splitSlashChars p.data, seg ≠ ['.'] ∧ seg ≠ ['.', '.']

def goodSegs (segs : List (List Char)) : Prop :=
  ∀ s ∈ segs, s ≠ [] ∧ '/' ∉ s

/-! ### Supporting lemmas -/

theorem find?_first {α : Type} (p : α → Bool) (pre rest : List α) (t : α)
    (hpre : ∀ u ∈ pre, ¬ p u) (ht : p t) :
    (pre ++ t :: rest).find? p = some t := by
  induction pre with
  | nil => simp [List.find?_cons, ht]
  | cons a as ih =>
    have ha : p a = false := by simpa using hpre a (by simp)
    simp [List.find?_cons, ha, ih (fun u hu => hpre u (by simp [hu]))]

theorem parseJsDocTags_summary (bl : JsDocBlock) :
    (parseJsDocTags bl).summary
      = (bl.tags.find? (fun t => t.tagName = "summary")).bind (·.comment) := by
  unfold parseJsDocTags
  cases h1 : bl.tags.find? (fun t => t.tagName = "summary") <;>
  cases h2 : bl.tags.find? (fun t => t.tagName = "description") <;>
  cases h3 : bl.tags.find? (fun t => t.tagName = "tags") <;>
  simp only [h1, h2, h3, Option.bind] <;>
  (repeat' split) <;> rfl

theorem parseJsDocTags_description_found (bl : JsDocBlock) (t : JsTag)
    (h : bl.tags.find? (fun u => u.tagName = "description") = some t) :
    (parseJsDocTags bl).description = t.comment := by
  unfold parseJsDocTags
  cases h1 : bl.tags.find? (fun u => u.tagName = "summary") <;>
  cases h3 : bl.tags.find? (fun u => u.tagName = "tags") <;>
  simp only [h1, h, h3] <;>
  (repeat' split) <;> rfl

theorem parseJsDocTags_tags_found (bl : JsDocBlock) (t : JsTag) (s : String)
    (h : bl.tags.find? (fun u => u.tagName = "tags") = some t)
    (hc : t.comment = some s) (hs : s ≠ "") :
    (parseJsDocTags bl).tags = some (splitTrimFilter s) := by
  unfold parseJsDocTags
  cases h1 : bl.tags.find? (fun u => u.tagName = "summary") <;>
  cases h2 : bl.tags.find? (fun u => u.tagName = "description") <;>
  simp only [h1, h2, h, hc] <;>
  (repeat' split) <;> simp_all

/-! ### Claim C3 -/

/-- C3 counterexample: a block carrying two `@summary` markers.  The
extractor returns the first marker's text, not the last one's, refuting
the claim that the last marker wins. -/
theorem claim3_counterexample :
    (parseJsDocTags { description := "",
                      tags := [⟨"summary", some "First"⟩, ⟨"summary", some "Last"⟩] }).summary
      = some "First" ∧ ("First" : String) ≠ "Last" := by
  decide

/-- C3 (amended): when a doc-comment block contains multiple markers of
the same scalar kind, the extractor uses the first one (the tag list is
searched front to back); the `@tags` category-list marker's value is split
on commas, each entry trimmed, and empty entries discarded. -/
theorem claim3_first_marker_wins (bl : JsDocBlock) :
    (∀ pre t rest, bl.tags = pre ++ t :: rest →
        (∀ u ∈ pre, u.tagName ≠ "summary") → t.tagName = "summary" →
        (parseJsDocTags bl).summary = t.comment)
    ∧ (∀ pre t rest, bl.tags = pre ++ t :: rest →
        (∀ u ∈ pre, u.tagName ≠ "description") → t.tagName = "description" →
        (parseJsDocTags bl).description = t.comment)
    ∧ (∀ pre t rest s, bl.tags = pre ++ t :: rest →
        (∀ u ∈ pre, u.tagName ≠ "tags") → t.tagName = "tags" →
        t.comment = some s → s ≠ "" →
        (parseJsDocTags bl).tags = some (splitTrimFilter s))
    ∧ splitTrimFilter " a , ,b " = ["a", "b"] := by
  refine ⟨?_, ?_, ?_, by decide⟩
  · intro pre t rest hsplit hpre ht
    have hf : bl.tags.find? (fun u => u.tagName = "summary") = some t := by
      rw [hsplit]
      exact find?_first _ pre rest t (fun u hu => by simpa using hpre u hu) (by simpa using ht)
    rw [parseJsDocTags_summary, hf]
    rfl
  · intro pre t rest hsplit hpre ht
    have hf : bl.tags.find? (fun u => u.tagName = "description") = some t := by
      rw [hsplit]
      exact find?_first _ pre rest t (fun u hu => by simpa using hpre u hu) (by simpa using ht)
    exact parseJsDocTags_description_found bl t hf
  · intro pre t rest s hsplit hpre ht hc hs
    have hf : bl.tags.find? (fun u => u.tagName = "tags") = some t := by
      rw [hsplit]
      exact find?_first _ pre rest t (fun u hu => by simpa using hpre u hu) (by simpa using ht)
    exact parseJsDocTags_tags_found bl t s hf hc hs

/-- C3 witness: the amended theorem applied to a concrete block with a
stray marker first, duplicated scalar markers and a category list. -/
theorem claim3_witness :
    (parseJsDocTags { description := "",
                      tags := [⟨"other", none⟩, ⟨"summary", some "S1"⟩,
                               ⟨"summary", some "S2"⟩, ⟨"description", some "D1"⟩,
                               ⟨"tags", some " a , ,b "⟩] }).summary
        = some "S1"
    ∧ (parseJsDocTags { description := "",
                        tags := [⟨"other", none⟩, ⟨"summary", some "S1"⟩,
                                 ⟨"summary", some "S2"⟩, ⟨"description", some "D1"⟩,
                                 ⟨"tags", some " a , ,b "⟩] }).tags
        = some ["a", "b"] := by
  constructor
  · exact (claim3_first_marker_wins _).1 [⟨"other", none⟩] ⟨"summary", some "S1"⟩
      [⟨"summary", some "S2"⟩, ⟨"description", some "D1"⟩, ⟨"tags", some " a , ,b "⟩]
      rfl (by decide) rfl
  · have h := (claim3_first_marker_wins { description := "",
                                          tags := [⟨"other", none⟩, ⟨"summary", some "S1"⟩,
                                                   ⟨"summary", some "S2"⟩,
                                                   ⟨"description", some "D1"⟩,
                                                   ⟨"tags", some " a , ,b "⟩] }).2.2.1
      [⟨"other", none⟩, ⟨"summary", some "S1"⟩, ⟨"summary", some "S2"⟩,
       ⟨"description", some "D1"⟩] ⟨"tags", some " a , ,b "⟩ [] " a , ,b "
      rfl (by decide) rfl rfl (by decide)
    rw [h]
    decide

theorem capitalizeWord_ne_nil (w : List Char) (h : w ≠ []) : capitalizeWord w ≠ [] := by
  cases w with
  | nil => exact absurd rfl h
  | cons c cs => simp [capitalizeWord]

theorem joinSpace_ne_nil (ws : List (List Char)) (h : ws ≠ []) (h2 : ∀ w ∈ ws, w ≠ []) :
    joinSpace ws ≠ [] := by
  match ws with
  | [] => exact absurd rfl h
  | [w] => simpa [joinSpace] using h2 w (by simp)
  | w :: x :: rest => simp [joinSpace]

theorem splitWordsAux_exists_nonempty (l cur : List Char)
    (h : (∃ c ∈ l, c ≠ '-' ∧ c ≠ '_') ∨ cur ≠ []) :
    ∃ w ∈ splitWordsAux cur l, w ≠ [] := by
  induction l generalizing cur with
  | nil =>
    rcases h with ⟨c, hc, _⟩ | h
    · simp at hc
    · exact ⟨cur.reverse, by simp [splitWordsAux], by simpa using h⟩
  | cons c cs ih =>
    by_cases hd : c = '-' ∨ c = '_'
    · rw [splitWordsAux, if_pos hd]
      rcases h with ⟨c', hc', hne⟩ | hcur
      · rcases List.mem_cons.mp hc' with rfl | hmem
        · rcases hd with rfl | rfl
          · exact absurd rfl hne.1
          · exact absurd rfl hne.2
        · obtain ⟨w, hw, hwne⟩ := ih [] (Or.inl ⟨c', hmem, hne⟩)
          exact ⟨w, by simp [hw], hwne⟩
      · exact ⟨cur.reverse, by simp, by simpa using hcur⟩
    · rw [splitWordsAux, if_neg hd]
      by_cases hu : c.isUpper
      · rw [if_pos hu]
        obtain ⟨w, hw, hwne⟩ := ih [c] (Or.inr (by simp))
        exact ⟨w, by simp [hw], hwne⟩
      · rw [if_neg hu]
        exact ih (c :: cur) (Or.inr (by simp))

theorem generateNameFromFilename_ne_empty (f : String)
    (h : ∃ c ∈ stripExtChars f.data, c ≠ '-' ∧ c ≠ '_') :
    generateNameFromFilename f ≠ "" := by
  obtain ⟨w, hw, hwne⟩ := splitWordsAux_exists_nonempty (stripExtChars f.data) [] (Or.inl h)
  unfold generateNameFromFilename
  intro hcon
  have hdata : joinSpace (((splitWordsAux [] (stripExtChars f.data)).filter
      (fun w => !w.isEmpty)).map capitalizeWord) = [] := by
    have := congrArg String.data hcon
    simpa using this
  have hmemf : w ∈ (splitWordsAux [] (stripExtChars f.data)).filter (fun w => !w.isEmpty) :=
    List.mem_filter.mpr ⟨hw, by simpa using hwne⟩
  have hne : (((splitWordsAux [] (stripExtChars f.data)).filter
      (fun w => !w.isEmpty)).map capitalizeWord) ≠ [] := by
    intro hnil
    rw [List.map_eq_nil_iff] at hnil
    rw [hnil] at hmemf
    simp at hmemf
  refine joinSpace_ne_nil _ hne ?_ hdata
  intro v hv
  rw [List.mem_map] at hv
  obtain ⟨u, hu, rfl⟩ := hv
  exact capitalizeWord_ne_nil u (by simpa using (List.mem_filter.mp hu).2)

theorem truthy_jsOrElse_ne (a : Option String) (b : String) (h : truthyStr a) :
    jsOrElse a b ≠ "" := by
  cases a with
  | none => simp [truthyStr] at h
  | some s =>
    simp only [truthyStr, decide_eq_true_eq] at h
    simpa [jsOrElse, truthyStr, h] using h

theorem not_truthy_jsOrElse (a : Option String) (b : String) (h : ¬ truthyStr a) :
    jsOrElse a b = b := by
  simp [jsOrElse, h]

/-! ### Claim C6 -/

/-- C6: for a bare module-path string, the Normalizer's prefix is the
module's `@prefix` comment when present and non-empty, else `"/"` plus the
filename without extension; the name is the `@name` comment when present
and non-empty, else the title-cased word-split rendering of the filename —
with `"user-profile.ts"` yielding prefix `"/user-profile"` and name
`"User Profile"`, and `"api-keys.ts"` yielding name `"Api Keys"`. -/
theorem claim6_normalizer_conventions (s rootPath : String)
    (files : String → Option SourceFileModel) (md : RouteMetadata)
    (hmd : md = (match files (posixJoin rootPath s) with
                 | some sf => extractRouteMetadata sf
                 | none => {})) :
    (∀ p, md.prefixVal = some p → p ≠ "" →
      (normalizeApiGroup (Sum.inl s) files rootPath).apiPrefix = p)
    ∧ (¬ truthyStr md.prefixVal →
      (normalizeApiGroup (Sum.inl s) files rootPath).apiPrefix
        = generatePrefixFromFilename (basename s))
    ∧ (∀ n, md.nameVal = some n → n ≠ "" →
      (normalizeApiGroup (Sum.inl s) files rootPath).name = n)
    ∧ (¬ truthyStr md.nameVal →
      (normalizeApiGroup (Sum.inl s) files rootPath).name
        = generateNameFromFilename (basename s))
    ∧ generatePrefixFromFilename "user-profile.ts" = "/user-profile"
    ∧ generateNameFromFilename "user-profile.ts" = "User Profile"
    ∧ generateNameFromFilename "api-keys.ts" = "Api Keys" := by
  have hg : normalizeApiGroup (Sum.inl s) files rootPath =
      { appTypePath := s,
        apiPrefix := jsOrElse md.prefixVal (generatePrefixFromFilename (basename s)),
        name := jsOrElse md.nameVal (generateNameFromFilename (basename s)),
        api := none } := by
    rw [normalizeApiGroup, hmd]
  refine ⟨?_, ?_, ?_, ?_, by decide, by decide, by decide⟩
  · intro p hp hpne
    rw [hg]
    simp [jsOrElse, truthyStr, hp, hpne]
  · intro h
    rw [hg]
    exact not_truthy_jsOrElse _ _ h
  · intro n hn hnne
    rw [hg]
    simp [jsOrElse, truthyStr, hn, hnne]
  · intro h
    rw [hg]
    exact not_truthy_jsOrElse _ _ h

/-- C6 witness: the theorem applied to the bare path
`"user-profile.ts"` with no parsed file available (so the metadata is
empty and both conventions fire). -/
theorem claim6_witness :
    (normalizeApiGroup (Sum.inl "user-profile.ts") (fun _ => none) "/proj").apiPrefix
      = "/user-profile"
    ∧ (normalizeApiGroup (Sum.inl "user-profile.ts") (fun _ => none) "/proj").name
      = "User Profile" := by
  have t := claim6_normalizer_conventions "user-profile.ts" "/proj" (fun _ => none) {} rfl
  constructor
  · rw [t.2.1 (by decide)]
    exact t.2.2.2.2.1
  · rw [t.2.2.2.1 (by decide)]
    exact t.2.2.2.2.2.1

/-! ### Claim C7 -/

/-- C7 counterexample: the bare module path `"_.ts"` (no parsed file, so
no `@name` override): the stripped filename consists only of an
underscore, the word split yields no words, and the returned group's name
is empty, refuting the claim that the Normalizer always returns a
non-empty name. -/
theorem claim7_counterexample :
    (normalizeApiGroup (Sum.inl "_.ts") (fun _ => none) "/proj").name = "" := by
  decide

/-- C7 (amended): the returned group has a non-empty name whenever the
input already carries one, or the module filename stripped of its
extension contains at least one character other than `'-'` and `'_'`
(filenames made only of such delimiters, e.g. `"_.ts"`, produce an empty
name when no `@name` comment is present). -/
theorem claim7_name_nonempty (files : String → Option SourceFileModel) (rootPath : String) :
    (∀ g : ApiGroup, g.name ≠ "" → (normalizeApiGroup (Sum.inr g) files rootPath).name ≠ "")
    ∧ (∀ s : String, (∃ c ∈ stripExtChars (basenameChars s.data), c ≠ '-' ∧ c ≠ '_') →
        (normalizeApiGroup (Sum.inl s) files rootPath).name ≠ "")
    ∧ (∀ g : ApiGroup, (∃ c ∈ stripExtChars (basenameChars g.appTypePath.data), c ≠ '-' ∧ c ≠ '_') →
        (normalizeApiGroup (Sum.inr g) files rootPath).name ≠ "") := by
  refine ⟨?_, ?_, ?_⟩
  · intro g hne
    rw [normalizeApiGroup, if_pos hne]
    exact hne
  · intro s hchar
    rw [normalizeApiGroup]
    by_cases ht : truthyStr (match files (posixJoin rootPath s) with
      | some sf => extractRouteMetadata sf
      | none => {}).nameVal
    · exact truthy_jsOrElse_ne _ _ ht
    · rw [not_truthy_jsOrElse _ _ ht]
      exact generateNameFromFilename_ne_empty (basename s) hchar
  · intro g hchar
    rw [normalizeApiGroup]
    by_cases hne : g.name ≠ ""
    · rw [if_pos hne]
      exact hne
    · rw [if_neg hne]
      by_cases ht : truthyStr (match files (posixJoin rootPath g.appTypePath) with
        | some sf => extractRouteMetadata sf
        | none => {}).nameVal
      · exact truthy_jsOrElse_ne _ _ ht
      · dsimp only
        rw [not_truthy_jsOrElse _ _ ht]
        exact generateNameFromFilename_ne_empty (basename g.appTypePath) hchar

/-- C7 witness: the amended theorem applied to the bare path
`"api-keys.ts"` and to a discovered group with an empty name. -/
theorem claim7_witness :
    (normalizeApiGroup (Sum.inl "api-keys.ts") (fun _ => none) "/proj").name ≠ ""
    ∧ (normalizeApiGroup
        (Sum.inr { apiPrefix := "/user", appTypePath := "src/routes/user.ts", name := "" })
        (fun _ => none) "/proj").name ≠ "" := by
  constructor
  · exact (claim7_name_nonempty (fun _ => none) "/proj").2.1 "api-keys.ts" (by decide)
  · exact (claim7_name_nonempty (fun _ => none) "/proj").2.2
      { apiPrefix := "/user", appTypePath := "src/routes/user.ts", name := "" } (by decide)

theorem jsOrStr_truthy (s : String) (b : Option String) (h : s ≠ "") :
    jsOrStr (some s) b = some s := by
  simp [jsOrStr, truthyStr, h]

theorem jsOrStr_not_truthy (a b : Option String) (h : ¬ truthyStr a) :
    jsOrStr a b = b := by
  simp [jsOrStr, h]

theorem ensureTags_summary (op : Operation) (n : String) :
    (ensureTags op n).summary = op.summary := by
  unfold ensureTags
  (repeat' split) <;> rfl

theorem ensureTags_description (op : Operation) (n : String) :
    (ensureTags op n).description = op.description := by
  unfold ensureTags
  (repeat' split) <;> rfl

theorem mergeOperation_summary (op : Operation) (jm : Option HandlerMetadata)
    (ca : Option CustomApi) (n : String) :
    (mergeOperation op jm ca n).summary = (priorityApply op jm ca).summary := by
  rw [mergeOperation, cleanDefaultResponse, ensureTags_summary]

theorem mergeOperation_description (op : Operation) (jm : Option HandlerMetadata)
    (ca : Option CustomApi) (n : String) :
    (mergeOperation op jm ca n).description = (priorityApply op jm ca).description := by
  rw [mergeOperation, cleanDefaultResponse, ensureTags_description]

/-! ### Claim C1 -/

/-- C1: the three-tier priority law of the merge.  For an operation taken
from a fragment, a non-empty override field is the one in the final merged
operation; with the override removed (or empty), a non-empty JSDoc field
is used, never the fragment's auto-generated value; and when neither tier
supplies a non-empty value the fragment's own field survives (never
blanked).  The tag list obeys the same non-empty-only replacement at the
priority stage. -/
theorem claim1_priority_law (op : Operation) (meta : HandlerMetadata) (c : CustomApi)
    (gname : String) :
    (∀ s, c.summary = some s → s ≠ "" →
        (mergeOperation op (some meta) (some c) gname).summary = some s)
    ∧ (¬ truthyStr c.summary → ∀ s, meta.summary = some s → s ≠ "" →
        (mergeOperation op (some meta) (some c) gname).summary = some s)
    ∧ (∀ s, meta.summary = some s → s ≠ "" →
        (mergeOperation op (some meta) none gname).summary = some s)
    ∧ (¬ truthyStr meta.summary → ¬ truthyStr c.summary →
        (mergeOperation op (some meta) (some c) gname).summary = op.summary)
    ∧ (∀ s, c.description = some s → s ≠ "" →
        (mergeOperation op (some meta) (some c) gname).description = some s)
    ∧ (¬ truthyStr c.description → ∀ s, meta.description = some s → s ≠ "" →
        (mergeOperation op (some meta) (some c) gname).description = some s)
    ∧ (∀ s, meta.description = some s → s ≠ "" →
        (mergeOperation op (some meta) none gname).description = some s)
    ∧ (¬ truthyStr meta.description → ¬ truthyStr c.description →
        (mergeOperation op (some meta) (some c) gname).description = op.description)
    ∧ (∀ ts, c.tag = some ts → ts ≠ [] →
        (priorityApply op (some meta) (some c)).tags = some ts)
    ∧ (¬ truthyList c.tag → ∀ ts, meta.tags = some ts → ts ≠ [] →
        (priorityApply op (some meta) (some c)).tags = some ts)
    ∧ (∀ ts, meta.tags = some ts → ts ≠ [] →
        (priorityApply op (some meta) none).tags = some ts)
    ∧ (¬ truthyList meta.tags → ¬ truthyList c.tag →
        (priorityApply op (some meta) (some c)).tags = op.tags) := by
  refine ⟨?_, ?_, ?_, ?_, ?_, ?_, ?_, ?_, ?_, ?_, ?_, ?_⟩
  · intro s hs hsne
    rw [mergeOperation_summary]
    simp [priorityApply, applyCustomApi, applyJsDocMeta, hs, jsOrStr_truthy _ _ hsne]
  · intro hc s hs hsne
    rw [mergeOperation_summary]
    simp [priorityApply, applyCustomApi, applyJsDocMeta, jsOrStr_not_truthy _ _ hc, hs,
      jsOrStr_truthy _ _ hsne]
  · intro s hs hsne
    rw [mergeOperation_summary]
    simp [priorityApply, applyJsDocMeta, hs, jsOrStr_truthy _ _ hsne]
  · intro hm hc
    rw [mergeOperation_summary]
    simp [priorityApply, applyCustomApi, applyJsDocMeta, jsOrStr_not_truthy _ _ hc,
      jsOrStr_not_truthy _ _ hm]
  · intro s hs hsne
    rw [mergeOperation_description]
    simp [priorityApply, applyCustomApi, applyJsDocMeta, hs, jsOrStr_truthy _ _ hsne]
  · intro hc s hs hsne
    rw [mergeOperation_description]
    simp [priorityApply, applyCustomApi, applyJsDocMeta, jsOrStr_not_truthy _ _ hc, hs,
      jsOrStr_truthy _ _ hsne]
  · intro s hs hsne
    rw [mergeOperation_description]
    simp [priorityApply, applyJsDocMeta, hs, jsOrStr_truthy _ _ hsne]
  · intro hm hc
    rw [mergeOperation_description]
    simp [priorityApply, applyCustomApi, applyJsDocMeta, jsOrStr_not_truthy _ _ hc,
      jsOrStr_not_truthy _ _ hm]
  · intro ts hts htsne
    simp [priorityApply, applyCustomApi, applyJsDocMeta, hts, truthyList, htsne]
  · intro hc ts hts htsne
    have h1 : ∀ x : Operation, (applyCustomApi x c).tags = x.tags := fun x => by
      simp [applyCustomApi, hc]
    show (applyCustomApi (applyJsDocMeta op meta) c).tags = some ts
    rw [h1]
    simp [applyJsDocMeta, hts, truthyList, htsne]
  · intro ts hts htsne
    simp [priorityApply, applyJsDocMeta, hts, truthyList, htsne]
  · intro hm hc
    simp [priorityApply, applyCustomApi, applyJsDocMeta, hm, hc]

/-- C1 witness: the law applied to a concrete operation with all three
tiers populated, and with the override removed. -/
theorem claim1_witness :
    (mergeOperation { summary := some "auto", tags := some ["T"] }
        (some { path := "/", method := "get", summary := some "doc" })
        (some { api := "/", method := "get", summary := some "cfg" }) "G").summary
      = some "cfg"
    ∧ (mergeOperation { summary := some "auto", tags := some ["T"] }
        (some { path := "/", method := "get", summary := some "doc" })
        none "G").summary
      = some "doc" := by
  constructor
  · exact (claim1_priority_law { summary := some "auto", tags := some ["T"] }
      { path := "/", method := "get", summary := some "doc" }
      { api := "/", method := "get", summary := some "cfg" } "G").1 "cfg" rfl (by decide)
  · exact (claim1_priority_law { summary := some "auto", tags := some ["T"] }
      { path := "/", method := "get", summary := some "doc" }
      { api := "/", method := "get", summary := some "cfg" } "G").2.2.1 "doc" rfl (by decide)

theorem foldl_tags_invariant {α : Type} (f : MergedDoc → α → MergedDoc)
    (hf : ∀ d a, (f d a).tags = d.tags) (l : List α) (d : MergedDoc) :
    (l.foldl f d).tags = d.tags := by
  induction l generalizing d with
  | nil => rfl
  | cons a as ih => rw [List.foldl_cons, ih, hf]

theorem mergeFragmentPaths_tags (doc : MergedDoc) (g : ApiGroup)
    (cm : List (String × CustomApi)) (jm : List (String × HandlerMetadata))
    (frag : Fragment) :
    (mergeFragmentPaths doc g cm jm frag).tags = doc.tags := by
  unfold mergeFragmentPaths
  refine foldl_tags_invariant _ ?_ _ _
  intro d pe
  dsimp only
  rw [foldl_tags_invariant]
  · split <;> rfl
  · intro d' me
    rfl

/-! ### Claim C2 -/

theorem mergeGroup_skip (env : MergeEnv) (rootPath : String) (tsConfigPath : Option String)
    (doc : MergedDoc) (g : ApiGroup)
    (hf : env.fragExists (sanitizeApiPrefix g.apiPrefix) = false) :
    mergeGroup env rootPath tsConfigPath doc g = some doc := by
  rw [mergeGroup, if_pos hf]

theorem mergeGroup_abort (env : MergeEnv) (rootPath : String) (tsConfigPath : Option String)
    (doc : MergedDoc) (g : ApiGroup)
    (hf : env.fragExists (sanitizeApiPrefix g.apiPrefix) = true)
    (hp : env.fragParse (sanitizeApiPrefix g.apiPrefix) = none) :
    mergeGroup env rootPath tsConfigPath doc g = none := by
  rw [mergeGroup, if_neg (by simp [hf]), hp]

theorem mergeGroup_push (env : MergeEnv) (rootPath : String) (tsConfigPath : Option String)
    (doc : MergedDoc) (g : ApiGroup) (json : Fragment)
    (hf : env.fragExists (sanitizeApiPrefix g.apiPrefix) = true)
    (hp : env.fragParse (sanitizeApiPrefix g.apiPrefix) = some json) :
    ∃ d2, mergeGroup env rootPath tsConfigPath doc g = some d2
      ∧ d2.tags = doc.tags ++ [g.name] := by
  rw [mergeGroup, if_neg (by simp [hf]), hp]
  dsimp only
  exact ⟨_, rfl, mergeFragmentPaths_tags _ _ _ _ _⟩

theorem runMergeAux_tags (env : MergeEnv) (rootPath : String) (tsConfigPath : Option String)
    (gs : List ApiGroup) :
    ∀ (d doc : MergedDoc), runMergeAux env rootPath tsConfigPath d gs = some doc →
      doc.tags = d.tags
        ++ (gs.filter (fun g => env.fragExists (sanitizeApiPrefix g.apiPrefix))).map
            (fun g => g.name) := by
  induction gs with
  | nil =>
    intro d doc h
    have h' : some d = some doc := h
    injection h' with h''
    subst h''
    simp
  | cons g rest ih =>
    intro d doc h
    cases hf : env.fragExists (sanitizeApiPrefix g.apiPrefix) with
    | false =>
      rw [runMergeAux, mergeGroup_skip env rootPath tsConfigPath d g hf] at h
      rw [ih d doc h]
      simp [List.filter_cons, hf]
    | true =>
      cases hp : env.fragParse (sanitizeApiPrefix g.apiPrefix) with
      | none =>
        rw [runMergeAux, mergeGroup_abort env rootPath tsConfigPath d g hf hp] at h
        exact Option.noConfusion h
      | some json =>
        obtain ⟨d2, hd2, htags⟩ := mergeGroup_push env rootPath tsConfigPath d g json hf hp
        rw [runMergeAux, hd2] at h
        rw [ih d2 doc h, htags]
        simp [List.filter_cons, hf, List.append_assoc]

theorem runMergeAux_total (env : MergeEnv) (rootPath : String) (tsConfigPath : Option String)
    (gs : List ApiGroup) :
    ∀ d : MergedDoc,
      (∀ g ∈ gs, env.fragExists (sanitizeApiPrefix g.apiPrefix) = true →
        (env.fragParse (sanitizeApiPrefix g.apiPrefix)).isSome = true) →
      (runMergeAux env rootPath tsConfigPath d gs).isSome = true := by
  induction gs with
  | nil => intro d _; rfl
  | cons g rest ih =>
    intro d hall
    cases hf : env.fragExists (sanitizeApiPrefix g.apiPrefix) with
    | false =>
      rw [runMergeAux, mergeGroup_skip env rootPath tsConfigPath d g hf]
      exact ih d (fun g2 hg2 => hall g2 (List.mem_cons_of_mem _ hg2))
    | true =>
      have hps := hall g (List.mem_cons_self g rest) hf
      cases hp : env.fragParse (sanitizeApiPrefix g.apiPrefix) with
      | none => simp [hp] at hps
      | some json =>
        obtain ⟨d2, hd2, _⟩ := mergeGroup_push env rootPath tsConfigPath d g json hf hp
        rw [runMergeAux, hd2]
        exact ih d2 (fun g2 hg2 => hall g2 (List.mem_cons_of_mem _ hg2))

theorem runMergeAux_fail (env : MergeEnv) (rootPath : String) (tsConfigPath : Option String)
    (gs : List ApiGroup) :
    ∀ (d : MergedDoc) (g : ApiGroup), g ∈ gs →
      env.fragExists (sanitizeApiPrefix g.apiPrefix) = true →
      env.fragParse (sanitizeApiPrefix g.apiPrefix) = none →
      runMergeAux env rootPath tsConfigPath d gs = none := by
  induction gs with
  | nil => intro d g hg; exact absurd hg (List.not_mem_nil g)
  | cons g0 rest ih =>
    intro d g hg hf hp
    rcases List.mem_cons.mp hg with heq | hmem
    · subst heq
      rw [runMergeAux, mergeGroup_abort env rootPath tsConfigPath d g hf hp]
      rfl
    · cases hm : mergeGroup env rootPath tsConfigPath d g0 with
      | none => rw [runMergeAux, hm]; rfl
      | some d2 =>
        rw [runMergeAux, hm]
        exact ih d2 g hmem hf hp

/-- C2 counterexample: one group whose fragment file is absent.  The merge
skips the group before the tag push, so the merged document's tag list is
empty — the group's tag is not recorded, refuting the claim. -/
theorem claim2_counterexample :
    (runMerge {} "/proj" none
        [{ apiPrefix := "/a", appTypePath := "src/a.ts", name := "A" }]).map
        (fun d => d.tags)
      = some [] := by
  decide

/-- C2 (amended): when the merge loop completes, the merged document's tag
list is exactly one `{ name: group.name }` entry per group whose fragment
file is present at merge time, in group order — a group whose fragment
file is absent is skipped entirely, its operations and its tag both
omitted, while a present but operation-less fragment still gets its tag;
the loop completes precisely when every present fragment file parses, and
a present fragment file that fails to parse aborts the whole run. -/
theorem claim2_tags_per_present_fragment (env : MergeEnv) (rootPath : String)
    (tsConfigPath : Option String) (groups : List ApiGroup) :
    (∀ doc, runMerge env rootPath tsConfigPath groups = some doc →
       doc.tags
         = (groups.filter (fun g => env.fragExists (sanitizeApiPrefix g.apiPrefix))).map
             (fun g => g.name))
    ∧ ((∀ g ∈ groups, env.fragExists (sanitizeApiPrefix g.apiPrefix) = true →
          (env.fragParse (sanitizeApiPrefix g.apiPrefix)).isSome = true) →
        (runMerge env rootPath tsConfigPath groups).isSome = true)
    ∧ (∀ g ∈ groups, env.fragExists (sanitizeApiPrefix g.apiPrefix) = true →
         env.fragParse (sanitizeApiPrefix g.apiPrefix) = none →
         runMerge env rootPath tsConfigPath groups = none) := by
  refine ⟨?_, ?_, ?_⟩
  · intro doc h
    exact (runMergeAux_tags env rootPath tsConfigPath groups {} doc h).trans
      (List.nil_append _)
  · intro hall
    exact runMergeAux_total env rootPath tsConfigPath groups {} hall
  · intro g hg hf hp
    exact runMergeAux_fail env rootPath tsConfigPath groups {} g hg hf hp

/-- C2 witness: the amended theorem at a concrete two-group store — the
fragment for `/user` present and parsing (its tag recorded), the one for
`/a` absent (skipped) — and at a store whose present fragment file fails
to parse, aborting the run. -/
theorem claim2_witness :
    runMerge
        { fragExists := fun n => n == sanitizeApiPrefix "/user",
          fragParse := fun _ => some { paths := [] } } "/proj" none
        [{ apiPrefix := "/user", appTypePath := "src/u.ts", name := "Users" },
         { apiPrefix := "/a", appTypePath := "src/a.ts", name := "A" }]
      = some { tags := ["Users"], paths := [] }
    ∧ ({ tags := ["Users"], paths := [] } : MergedDoc).tags = ["Users"]
    ∧ (runMerge
        { fragExists := fun n => n == sanitizeApiPrefix "/user",
          fragParse := fun _ => some { paths := [] } } "/proj" none
        [{ apiPrefix := "/user", appTypePath := "src/u.ts", name := "Users" },
         { apiPrefix := "/a", appTypePath := "src/a.ts", name := "A" }]).isSome = true
    ∧ runMerge
        { fragExists := fun _ => true, fragParse := fun _ => none } "/proj" none
        [{ apiPrefix := "/user", appTypePath := "src/u.ts", name := "Users" }]
      = none := by
  refine ⟨by decide, ?_, ?_, ?_⟩
  · exact ((claim2_tags_per_present_fragment
      { fragExists := fun n => n == sanitizeApiPrefix "/user",
        fragParse := fun _ => some { paths := [] } } "/proj" none
      [{ apiPrefix := "/user", appTypePath := "src/u.ts", name := "Users" },
       { apiPrefix := "/a", appTypePath := "src/a.ts", name := "A" }]).1
      { tags := ["Users"], paths := [] } (by decide)).trans (by decide)
  · exact (claim2_tags_per_present_fragment
      { fragExists := fun n => n == sanitizeApiPrefix "/user",
        fragParse := fun _ => some { paths := [] } } "/proj" none
      [{ apiPrefix := "/user", appTypePath := "src/u.ts", name := "Users" },
       { apiPrefix := "/a", appTypePath := "src/a.ts", name := "A" }]).2.1
      (by decide)
  · exact (claim2_tags_per_present_fragment
      { fragExists := fun _ => true, fragParse := fun _ => none } "/proj" none
      [{ apiPrefix := "/user", appTypePath := "src/u.ts", name := "Users" }]).2.2
      { apiPrefix := "/user", appTypePath := "src/u.ts", name := "Users" }
      (by decide) (by decide) (by decide)

/-! ### Claim C4 -/

/-- C4 counterexample: a relative specifier for which both the literal
path and the `".ts"`-extended path exist as files.  The resolver returns
the extension-appended path, refuting the claim that the literal path is
probed first. -/
theorem claim4_counterexample :
    resolveImportPath "/proj/src/a.ts" "./b" "/proj" none
        { fsExists := fun p => (p == "/proj/src/b") || (p == "/proj/src/b.ts") }
      = some "/proj/src/b.ts"
    ∧ ("/proj/src/b.ts" : String) ≠ "/proj/src/b" := by
  decide

/-- C4 (amended): a relative specifier (`.`/`..`) is resolved against the
referencing file's directory, probing the path with the source extension
appended FIRST and the literal path second, the first that exists winning;
the three strategies (relative, alias table, source-root convention) run
in strict order with the first success winning, and when nothing is found
resolution returns `none` rather than throwing. -/
theorem claim4_resolution_order (currentFilePath importPath rootPath : String)
    (tsConfigPath : Option String) (env : ResolveEnv) (r : String)
    (hr : r = pathResolve ⟨dirnameChars currentFilePath.data⟩ importPath) :
    (jsStartsWith importPath "." →
      ((env.fsExists (r ++ ".ts") →
          resolveImportPath currentFilePath importPath rootPath tsConfigPath env
            = some (r ++ ".ts"))
       ∧ (¬ env.fsExists (r ++ ".ts") → env.fsExists r →
          resolveImportPath currentFilePath importPath rootPath tsConfigPath env = some r)
       ∧ (¬ env.fsExists (r ++ ".ts") → ¬ env.fsExists r →
          resolveImportPath currentFilePath importPath rootPath tsConfigPath env = none)))
    ∧ (∀ tcp tc ps res, ¬ jsStartsWith importPath "." → tsConfigPath = some tcp →
        (jsStartsWith importPath "~" ∨ jsStartsWith importPath "@") →
        env.tsConfigs tcp = some tc → tc.pathsMap = some ps →
        resolvePathAlias importPath ps rootPath tc.baseUrl env = some res →
        resolveImportPath currentFilePath importPath rootPath tsConfigPath env = some res)
    ∧ (¬ jsStartsWith importPath "." → tsConfigPath = none →
        env.fsExists (posixJoin3 rootPath "src" importPath ++ ".ts") →
        resolveImportPath currentFilePath importPath rootPath tsConfigPath env
          = some (posixJoin3 rootPath "src" importPath ++ ".ts"))
    ∧ (¬ jsStartsWith importPath "." → tsConfigPath = none →
        ¬ env.fsExists (posixJoin3 rootPath "src" importPath ++ ".ts") →
        ¬ env.fsExists (posixJoin3 rootPath "src" importPath) →
        resolveImportPath currentFilePath importPath rootPath tsConfigPath env = none) := by
  refine ⟨?_, ?_, ?_, ?_⟩
  · intro hrel
    subst hr
    refine ⟨?_, ?_, ?_⟩
    · intro h1
      simp only [resolveImportPath.eq_def, if_pos hrel]
      rw [if_pos h1]
    · intro h1 h2
      simp only [resolveImportPath.eq_def, if_pos hrel]
      rw [if_neg h1, if_pos h2]
    · intro h1 h2
      simp only [resolveImportPath.eq_def, if_pos hrel]
      rw [if_neg h1, if_neg h2]
  · intro tcp tc ps res hrel htcp hpre htc hps hres
    simp only [resolveImportPath.eq_def, if_neg hrel, htcp, if_pos hpre, htc, hps, hres]
  · intro hrel htcp hts
    simp only [resolveImportPath.eq_def, if_neg hrel, htcp]
    rw [if_pos hts]
  · intro hrel htcp hts hlit
    simp only [resolveImportPath.eq_def, if_neg hrel, htcp]
    rw [if_neg hts, if_neg hlit]

/-- C4 witness: the amended theorem at a concrete environment where only
the extension-appended relative target exists, plus a failing source-root
lookup returning `none`. -/
theorem claim4_witness :
    resolveImportPath "/proj/src/routes/u.ts" "./handlers" "/proj" none
        { fsExists := fun p => p == "/proj/src/routes/handlers.ts" }
      = some "/proj/src/routes/handlers.ts"
    ∧ resolveImportPath "/proj/src/a.ts" "missing" "/proj" none
        { fsExists := fun _ => false }
      = none := by
  constructor
  · exact ((claim4_resolution_order "/proj/src/routes/u.ts" "./handlers" "/proj" none
      { fsExists := fun p => p == "/proj/src/routes/handlers.ts" }
      "/proj/src/routes/handlers" (by decide)).1 (by decide)).1 (by decide)
  · exact (claim4_resolution_order "/proj/src/a.ts" "missing" "/proj" none
      { fsExists := fun _ => false } "/proj/src/missing" (by decide)).2.2.2
      (by decide) rfl (by decide) (by decide)

theorem mapGet_mapSet {α β : Type} [DecidableEq α] (m : List (α × β)) (k' : α) (v' : β)
    (k : α) : mapGet (mapSet m k' v') k = if k' = k then some v' else mapGet m k := by
  induction m with
  | nil => simp [mapSet, mapGet]
  | cons p rest ih =>
    obtain ⟨a, b⟩ := p
    by_cases hak : a = k'
    · subst hak
      simp [mapSet, mapGet]
      split <;> simp_all [mapGet]
    · rw [mapSet, if_neg hak]
      by_cases h2 : a = k
      · subst h2
        rw [mapGet, if_pos rfl]
        split
        · rename_i hkk
          subst hkk
          exact absurd rfl hak
        · rw [mapGet, if_pos rfl]
      · rw [mapGet, if_neg h2, ih]
        split <;> [rfl; rw [mapGet, if_neg h2]]

theorem processCall_only_if (sf : LocatedFile) (rootPath : String)
    (tsConfigPath : Option String) (env : DiscoverEnv) (call : ChainCall)
    (k : String) (v : HandlerMetadata)
    (h : processCall sf rootPath tsConfigPath env call = some (k, v)) :
    (∃ m ∈ httpMethods, jsEndsWith call.calleeText ("." ++ m))
    ∧ (∃ a ∈ call.argTexts, jsStartsWith a "...")
    ∧ (∃ sp hp hf jm,
        (call.argTexts.filter (fun a => jsStartsWith a "...")).head? = some sp
        ∧ traceHandlerImport sf ⟨sp.data.drop 3⟩ rootPath tsConfigPath env.toResolveEnv
            = some hp
        ∧ (match env.files hp with
           | some f => some f
           | none => env.files (if jsEndsWith hp ".ts" then hp else hp ++ ".ts")) = some hf
        ∧ extractJsDocFromHandler hf ⟨sp.data.drop 3⟩ = some jm) := by
  unfold processCall at h
  cases hm : methodOf call.calleeText with
  | none => simp only [hm] at h; exact Option.noConfusion h
  | some method =>
    simp only [hm] at h
    cases hargs : call.argTexts with
    | nil => simp only [hargs] at h; exact Option.noConfusion h
    | cons pathArg restArgs =>
      simp only [hargs] at h
      cases hsp : (pathArg :: restArgs).filter (fun a => jsStartsWith a "...") with
      | nil => simp only [hsp] at h; exact Option.noConfusion h
      | cons sp spRest =>
        simp only [hsp] at h
        cases htr : traceHandlerImport sf ⟨sp.data.drop 3⟩ rootPath tsConfigPath
            env.toResolveEnv with
        | none => simp only [htr] at h; exact Option.noConfusion h
        | some hp =>
          simp only [htr] at h
          cases hhf : (match env.files hp with
            | some f => some f
            | none => env.files (if jsEndsWith hp ".ts" then hp else hp ++ ".ts")) with
          | none => simp only [hhf] at h; exact Option.noConfusion h
          | some hf =>
            simp only [hhf] at h
            cases hex : extractJsDocFromHandler hf ⟨sp.data.drop 3⟩ with
            | none => simp only [hex] at h; exact Option.noConfusion h
            | some jm =>
              have hmem : sp ∈ (pathArg :: restArgs).filter (fun a => jsStartsWith a "...") := by
                rw [hsp]; exact List.mem_cons_self _ _
              have hmem2 : jsStartsWith sp "..." := (List.mem_filter.mp hmem).2
              exact ⟨⟨method, List.mem_of_find?_eq_some hm, by simpa using List.find?_some hm⟩,
                     ⟨sp, (List.mem_filter.mp hmem).1, hmem2⟩,
                     sp, hp, hf, jm, rfl, htr, hhf, hex⟩

theorem processCall_none_of_no_method (sf : LocatedFile) (rootPath : String)
    (tsConfigPath : Option String) (env : DiscoverEnv) (call : ChainCall)
    (hno : ∀ m ∈ httpMethods, ¬ jsEndsWith call.calleeText ("." ++ m)) :
    processCall sf rootPath tsConfigPath env call = none := by
  unfold processCall
  cases hm : methodOf call.calleeText with
  | none => rfl
  | some m =>
    exact absurd (by simpa using List.find?_some hm) (hno m (List.mem_of_find?_eq_some hm))

theorem processCall_none_of_no_spread (sf : LocatedFile) (rootPath : String)
    (tsConfigPath : Option String) (env : DiscoverEnv) (call : ChainCall)
    (hno : ∀ a ∈ call.argTexts, ¬ jsStartsWith a "...") :
    processCall sf rootPath tsConfigPath env call = none := by
  unfold processCall
  cases hm : methodOf call.calleeText with
  | none => rfl
  | some m =>
    cases hargs : call.argTexts with
    | nil => rfl
    | cons p r =>
      have hf : (p :: r).filter (fun a => jsStartsWith a "...") = [] := by
        rw [List.filter_eq_nil_iff]
        intro a ha
        simpa using hno a (by rw [hargs]; exact ha)
      simp only [hf]

theorem parseMethodChain_only_if (sf : LocatedFile) (rootPath : String)
    (tsConfigPath : Option String) (env : DiscoverEnv) (calls : List ChainCall) :
    ∀ (m0 : List (String × HandlerMetadata)) (k : String) (v : HandlerMetadata),
      mapGet (parseMethodChain sf rootPath tsConfigPath env m0 calls) k = some v →
      mapGet m0 k = some v
        ∨ ∃ call ∈ calls, processCall sf rootPath tsConfigPath env call = some (k, v) := by
  induction calls with
  | nil => intro m0 k v h; exact Or.inl h
  | cons c cs ih =>
    intro m0 k v h
    have h' : mapGet (parseMethodChain sf rootPath tsConfigPath env
        (match processCall sf rootPath tsConfigPath env c with
         | some (k0, v0) => mapSet m0 k0 v0
         | none => m0) cs) k = some v := h
    rcases ih _ k v h' with hl | ⟨call, hcall, hpc⟩
    · cases hpc0 : processCall sf rootPath tsConfigPath env c with
      | none =>
        rw [hpc0] at hl
        exact Or.inl hl
      | some kv =>
        obtain ⟨k0, v0⟩ := kv
        rw [hpc0] at hl
        rw [mapGet_mapSet] at hl
        by_cases hk : k0 = k
        · rw [if_pos hk] at hl
          obtain rfl : v0 = v := by simpa using hl
          exact Or.inr ⟨c, List.mem_cons_self _ _, by rw [hpc0, hk]⟩
        · rw [if_neg hk] at hl
          exact Or.inl hl
    · exact Or.inr ⟨call, List.mem_cons_of_mem _ hcall, hpc⟩

theorem discoverHandlers_only_if (env : DiscoverEnv) (routeFilePath rootPath : String)
    (tsConfigPath : Option String) (k : String) (v : HandlerMetadata)
    (h : mapGet (discoverHandlersFromRoute env routeFilePath rootPath tsConfigPath) k
        = some v) :
    ∃ sf', env.files routeFilePath = some sf'
      ∧ ∃ d ∈ sf'.varDecls.filter (fun d => containsSeq "Hono()".data d.initText.data),
        ∃ call ∈ d.initCalls,
          processCall ⟨routeFilePath, sf'⟩ rootPath tsConfigPath env call = some (k, v) := by
  unfold discoverHandlersFromRoute at h
  cases hfile : env.files routeFilePath with
  | none => rw [hfile] at h; exact absurd h (by simp [mapGet])
  | some sf' =>
    rw [hfile] at h
    refine ⟨sf', rfl, ?_⟩
    have main : ∀ (ds : List VarDecl) (m0 : List (String × HandlerMetadata)),
        mapGet (ds.foldl (fun m d =>
          parseMethodChain ⟨routeFilePath, sf'⟩ rootPath tsConfigPath env m d.initCalls) m0) k
            = some v →
        mapGet m0 k = some v ∨ ∃ d ∈ ds, ∃ call ∈ d.initCalls,
          processCall ⟨routeFilePath, sf'⟩ rootPath tsConfigPath env call = some (k, v) := by
      intro ds
      induction ds with
      | nil => intro m0 hh; exact Or.inl hh
      | cons d ds ih =>
        intro m0 hh
        rcases ih _ hh with hl | ⟨d', hd', hrest⟩
        · rcases parseMethodChain_only_if ⟨routeFilePath, sf'⟩ rootPath tsConfigPath env
            d.initCalls m0 k v hl with hm0 | ⟨call, hc, hpc⟩
          · exact Or.inl hm0
          · exact Or.inr ⟨d, List.mem_cons_self _ _, call, hc, hpc⟩
        · exact Or.inr ⟨d', List.mem_cons_of_mem _ hd', hrest⟩
    rcases main _ _ h with hl | hr
    · exact absurd hl (by simp [mapGet])
    · exact hr


/-! ### Claim C10 -/

/-- C10: handler-level discovery emits a metadata entry only for chained
calls whose callee ends in one of `get`, `post`, `put`, `patch`, `delete`
and that pass at least one spread argument whose handler name traces to a
resolvable import, a project file and a doc-comment; a call with any other
method or with only inline (non-spread) handlers contributes nothing, and
every entry of the discovered map (and of the whole per-module map) comes
from such a qualifying call. -/
theorem claim10_handler_discovery (sf : LocatedFile) (rootPath : String)
    (tsConfigPath : Option String) (env : DiscoverEnv) :
    (∀ call k v, processCall sf rootPath tsConfigPath env call = some (k, v) →
       (∃ m ∈ httpMethods, jsEndsWith call.calleeText ("." ++ m))
       ∧ (∃ a ∈ call.argTexts, jsStartsWith a "...")
       ∧ (∃ sp hp hf jm,
           (call.argTexts.filter (fun a => jsStartsWith a "...")).head? = some sp
           ∧ traceHandlerImport sf ⟨sp.data.drop 3⟩ rootPath tsConfigPath env.toResolveEnv
               = some hp
           ∧ (match env.files hp with
              | some f => some f
              | none => env.files (if jsEndsWith hp ".ts" then hp else hp ++ ".ts")) = some hf
           ∧ extractJsDocFromHandler hf ⟨sp.data.drop 3⟩ = some jm))
    ∧ (∀ call, (∀ m ∈ httpMethods, ¬ jsEndsWith call.calleeText ("." ++ m)) →
        processCall sf rootPath tsConfigPath env call = none)
    ∧ (∀ call, (∀ a ∈ call.argTexts, ¬ jsStartsWith a "...") →
        processCall sf rootPath tsConfigPath env call = none)
    ∧ (∀ calls m0 k v,
        mapGet (parseMethodChain sf rootPath tsConfigPath env m0 calls) k = some v →
        mapGet m0 k = some v
          ∨ ∃ call ∈ calls, processCall sf rootPath tsConfigPath env call = some (k, v))
    ∧ (∀ routeFilePath k v,
        mapGet (discoverHandlersFromRoute env routeFilePath rootPath tsConfigPath) k = some v →
        ∃ sf', env.files routeFilePath = some sf'
          ∧ ∃ d ∈ sf'.varDecls.filter (fun d => containsSeq "Hono()".data d.initText.data),
            ∃ call ∈ d.initCalls,
              processCall ⟨routeFilePath, sf'⟩ rootPath tsConfigPath env call = some (k, v)) :=
  ⟨fun call k v h => processCall_only_if sf rootPath tsConfigPath env call k v h,
   fun call h => processCall_none_of_no_method sf rootPath tsConfigPath env call h,
   fun call h => processCall_none_of_no_spread sf rootPath tsConfigPath env call h,
   fun calls m0 k v h => parseMethodChain_only_if sf rootPath tsConfigPath env calls m0 k v h,
   fun routeFilePath k v h =>
     discoverHandlers_only_if env routeFilePath rootPath tsConfigPath k v h⟩

/-- C10 witness: a qualifying `.get` call with a spread handler argument
yields an entry (and hence has a spread argument), while an `.options`
call and a `.get` call with only an inline handler yield none. -/
theorem claim10_witness :
    (∃ a ∈ ["\"/\"", "...getHandlers"], jsStartsWith a "...")
    ∧ processCall ⟨"/proj/src/routes/u.ts", {}⟩ "/proj" none {}
        { calleeText := "app.options", argTexts := ["\"/\""] } = none
    ∧ processCall ⟨"/proj/src/routes/u.ts", {}⟩ "/proj" none {}
        { calleeText := "app.get", argTexts := ["\"/\"", "(c) => c.json()"] } = none := by
  refine ⟨?_, ?_, ?_⟩
  · exact (((claim10_handler_discovery
      ⟨"/proj/src/routes/u.ts",
        { imports := [{ namedImports := ["getHandlers"], moduleSpecifier := "../handlers" }] }⟩
      "/proj" none
      { fsExists := fun p => p == "/proj/src/handlers.ts",
        files := fun p =>
          if p = "/proj/src/handlers.ts" then
            some { varDecls := [{ varName := "getHandlers",
                                  jsDocs := [{ description := "",
                                               tags := [⟨"summary", some "List"⟩] }] }] }
          else none }).1
      { calleeText := "app.get", argTexts := ["\"/\"", "...getHandlers"] }
      "get /"
      { path := "/", method := "get", summary := some "List" }
      (by decide)).2).1
  · exact (claim10_handler_discovery ⟨"/proj/src/routes/u.ts", {}⟩ "/proj" none {}).2.1
      { calleeText := "app.options", argTexts := ["\"/\""] } (by decide)
  · exact (claim10_handler_discovery ⟨"/proj/src/routes/u.ts", {}⟩ "/proj" none {}).2.2.1
      { calleeText := "app.get", argTexts := ["\"/\"", "(c) => c.json()"] } (by decide)

/-! ### Claim C5 -/

/-- C5 counterexample: a configuration with both `appPath` and `apis`.
The run does fail with the fatal configuration error, but the event trace
shows file accesses (loading the config file, constructing the ts-morph
project from the tsconfig) strictly before the validation failure,
refuting the claim that the failure occurs before any file I/O. -/
theorem claim5_counterexample :
    runGenerateEvents
        { tsConfigPath := "tsconfig.json", appPath := some "src/index.ts",
          apis := some ["src/routes/u.ts"] } {} "/proj"
      = [GenEvent.readConfigFile, GenEvent.initProject, GenEvent.configErrorBoth]
    ∧ ((runGenerateEvents
        { tsConfigPath := "tsconfig.json", appPath := some "src/index.ts",
          apis := some ["src/routes/u.ts"] } {} "/proj").takeWhile
          (fun e => e ≠ GenEvent.configErrorBoth)).any isDiskAccess = true := by
  decide

/-- C5 (amended): a configuration supplying both `appPath` and `apis`, or
neither, makes the run fail with the fatal configuration error, and the
failure occurs before any discovery, generation, fragment access or output
write — but after the config file has been loaded and the ts-morph project
constructed, both of which read the file system. -/
theorem claim5_validation (cfg : HonoDocsConfig) (env : MergeEnv) (rootPath : String) :
    (truthyStr cfg.appPath → cfg.apis.isSome →
       configValidationError cfg = some "Config error: cannot use both appPath and apis."
       ∧ runGenerateEvents cfg env rootPath
           = [GenEvent.readConfigFile, GenEvent.initProject, GenEvent.configErrorBoth])
    ∧ (¬ truthyStr cfg.appPath → cfg.apis.isNone →
       configValidationError cfg = some "Config error: must provide either appPath or apis."
       ∧ runGenerateEvents cfg env rootPath
           = [GenEvent.readConfigFile, GenEvent.initProject, GenEvent.configErrorNeither]) := by
  constructor
  · intro h1 h2
    constructor
    · rw [configValidationError, if_pos ⟨h1, h2⟩]
    · rw [runGenerateEvents, if_pos ⟨h1, h2⟩]
      rfl
  · intro h1 h2
    have hnot : ¬ (truthyStr cfg.appPath ∧ cfg.apis.isSome) := fun hc => h1 hc.1
    have hne : ¬ truthyStr cfg.appPath ∧ cfg.apis.isNone := ⟨h1, h2⟩
    constructor
    · rw [configValidationError, if_neg hnot, if_pos hne]
    · rw [runGenerateEvents, if_neg hnot, if_pos hne]
      rfl

/-- C5 witness: the amended theorem at a concrete both-set configuration
and a concrete neither-set configuration. -/
theorem claim5_witness :
    runGenerateEvents
        { tsConfigPath := "tsconfig.json", appPath := some "src/index.ts",
          apis := some [] } {} "/proj"
      = [GenEvent.readConfigFile, GenEvent.initProject, GenEvent.configErrorBoth]
    ∧ configValidationError { tsConfigPath := "tsconfig.json" }
      = some "Config error: must provide either appPath or apis." := by
  constructor
  · exact ((claim5_validation
      { tsConfigPath := "tsconfig.json", appPath := some "src/index.ts", apis := some [] }
      {} "/proj").1 (by decide) (by decide)).2
  · exact ((claim5_validation { tsConfigPath := "tsconfig.json" } {} "/proj").2
      (by decide) (by decide)).1


theorem rpAux_false_cons (c : Char) (cs : List Char) :
    rewriteParamsAux false (c :: cs)
      = if c = ':' then
          (match cs with
           | [] => [':']
           | d :: ds =>
             if isIdentStart d then bracketOpen :: d :: rewriteParamsAux true ds
             else ':' :: rewriteParamsAux false (d :: ds))
        else c :: rewriteParamsAux false cs := by
  rw [rewriteParamsAux.eq_def]

theorem rpAux_true_cons (c : Char) (cs : List Char) :
    rewriteParamsAux true (c :: cs)
      = if isIdentChar c then c :: rewriteParamsAux true cs
        else
          bracketClose ::
            (if c = ':' then
              (match cs with
               | [] => [':']
               | d :: ds =>
                 if isIdentStart d then bracketOpen :: d :: rewriteParamsAux true ds
                 else ':' :: rewriteParamsAux false (d :: ds))
            else c :: rewriteParamsAux false cs) := by
  rw [rewriteParamsAux.eq_def]

theorem rpAux_true_exit (c : Char) (cs : List Char) (h : ¬ isIdentChar c) :
    rewriteParamsAux true (c :: cs) = bracketClose :: rewriteParamsAux false (c :: cs) := by
  rw [rpAux_true_cons, if_neg h, rpAux_false_cons]


theorem rpAux_false_colon (d : Char) (ds : List Char) (hd : isIdentStart d) :
    rewriteParamsAux false (':' :: d :: ds) = bracketOpen :: d :: rewriteParamsAux true ds := by
  rw [rpAux_false_cons, if_pos rfl]
  dsimp only
  rw [if_pos hd]

theorem rpAux_true_ident (ds t : List Char) (hds : ∀ c ∈ ds, isIdentChar c)
    (ht : ¬ isIdentChar (t.headD ' ')) :
    rewriteParamsAux true (ds ++ t) = ds ++ bracketClose :: rewriteParamsAux false t := by
  induction ds with
  | nil =>
    simp only [List.nil_append]
    cases t with
    | nil => rfl
    | cons c cs =>
      simp only [List.headD_cons] at ht
      exact rpAux_true_exit c cs ht
  | cons d ds ih =>
    have hd : isIdentChar d = true := hds d (by simp)
    rw [List.cons_append, rpAux_true_cons, if_pos hd, ih (fun c hc => hds c (by simp [hc]))]
    rfl

theorem rpAux_copy (s rest : List Char) (h : ∀ c ∈ s, c ≠ ':') :
    rewriteParamsAux false (s ++ rest) = s ++ rewriteParamsAux false rest := by
  induction s with
  | nil => rfl
  | cons c cs ih =>
    have hc : ¬ (c = ':') := h c (by simp)
    rw [List.cons_append, rpAux_false_cons, if_neg hc, ih (fun a ha => h a (by simp [ha]))]
    rfl

theorem rpAux_param (d : Char) (ds t : List Char)
    (hd : isIdentStart d) (hds : ∀ c ∈ ds, isIdentChar c)
    (ht : ¬ isIdentChar (t.headD ' ')) :
    rewriteParamsAux false (':' :: d :: ds ++ t)
      = bracketOpen :: d :: ds ++ bracketClose :: rewriteParamsAux false t := by
  have heq : (':' :: d :: ds ++ t) = ':' :: d :: (ds ++ t) := rfl
  rw [heq, rpAux_false_colon d (ds ++ t) hd, rpAux_true_ident ds t hds ht]
  rfl


/-! ### Claim C9 -/

/-- C9: every colon-prefixed parameter token `:name` (an identifier
following a colon, delimited on the right by a non-identifier character or
the end of the path) is rewritten to the bracket form before prefixing,
and concretely the discovered path `"/u/:id"` appears as `"/u/{id}"` and
joins with group prefix `"/user"` to `"/user/u/{id}"` (brackets written as
their escapes below). -/
theorem claim9_param_rewrite (s t : List Char) (d : Char) (ds : List Char)
    (hs : ∀ c ∈ s, c ≠ ':') (hd : isIdentStart d) (hds : ∀ c ∈ ds, isIdentChar c)
    (ht : ¬ isIdentChar (t.headD ' ')) :
    rewriteParams ⟨s ++ (':' :: d :: (ds ++ t))⟩
      = ⟨s ++ (bracketOpen :: d :: (ds ++ (bracketClose :: rewriteParamsAux false t)))⟩
    ∧ rewriteParams "/u/:id" = "/u/\x7bid\x7d"
    ∧ remapJsDocKey "/user" "get /u/:id" = "get /user/u/\x7bid\x7d"
    ∧ joinAndCollapse "/user" "/u/\x7bid\x7d" = "/user/u/\x7bid\x7d" := by
  refine ⟨?_, by decide, by decide, by decide⟩
  have hlist : rewriteParamsAux false (s ++ (':' :: d :: (ds ++ t)))
      = s ++ (bracketOpen :: d :: (ds ++ (bracketClose :: rewriteParamsAux false t))) := by
    rw [rpAux_copy s _ hs]
    have h2 := rpAux_param d ds t hd hds ht
    rw [List.cons_append, List.cons_append] at h2
    rw [h2]
    simp
  exact congrArg String.mk hlist

/-- C9 witness: the general token rewrite applied to the concrete path
`"/u/:id"` split as prefix `"/u/"`, parameter head `'i'`, tail `"d"`. -/
theorem claim9_witness :
    rewriteParams ⟨"/u/".data ++ (':' :: 'i' :: ("d".data ++ []))⟩
      = ⟨"/u/".data ++ (bracketOpen :: 'i' :: ("d".data
          ++ (bracketClose :: rewriteParamsAux false [])))⟩ :=
  (claim9_param_rewrite "/u/".data [] 'i' "d".data
    (by decide) (by decide) (by decide) (by decide)).1


theorem splitSlashAux_char (cur rest : List Char) (c : Char) (hc : c ≠ '/') :
    splitSlashAux cur (c :: rest) = splitSlashAux (c :: cur) rest := by
  rw [splitSlashAux.eq_def]
  split
  · rename_i heq; cases heq
  · rename_i heq
    injection heq with h1 h2
    subst h1
    exact absurd rfl hc
  · rename_i heq
    injection heq with h1 h2
    subst h1; subst h2
    rfl

theorem splitSlashAux_allslash (l : List Char) (hl : ∀ c ∈ l, c = '/') :
    ∀ cur, splitSlashAux cur l = if cur = [] then [] else [cur.reverse] := by
  induction l with
  | nil => intro cur; rw [splitSlashAux]
  | cons c cs ih =>
    intro cur
    obtain rfl : c = '/' := hl c (by simp)
    rw [splitSlashAux]
    have hrest := ih (fun a ha => hl a (by simp [ha])) []
    rw [if_pos rfl] at hrest
    split
    · exact hrest
    · rw [hrest]

theorem splitSlashAux_consume (s : List Char) (hs : '/' ∉ s) :
    ∀ cur rest, splitSlashAux cur (s ++ rest) = splitSlashAux (s.reverse ++ cur) rest := by
  induction s with
  | nil => intro cur rest; rfl
  | cons c cs ih =>
    intro cur rest
    have hc : c ≠ '/' := fun h => hs (by simp [h])
    rw [List.cons_append, splitSlashAux_char _ _ _ hc, ih (fun h => hs (by simp [h]))]
    simp

theorem splitSlash_render (segs : List (List Char)) (hg : goodSegs segs)
    (slashes : List Char) (hsl : ∀ c ∈ slashes, c = '/') :
    splitSlashChars (intercalateSlash segs ++ slashes) = segs := by
  induction segs with
  | nil =>
    rw [intercalateSlash, List.nil_append, splitSlashChars,
      splitSlashAux_allslash slashes hsl, if_pos rfl]
  | cons s rest ih =>
    cases rest with
    | nil =>
      rw [intercalateSlash, splitSlashChars,
        splitSlashAux_consume s (hg s (by simp)).2 [] slashes,
        splitSlashAux_allslash slashes hsl]
      have hne : s.reverse ++ [] ≠ [] := by
        simpa using (hg s (by simp)).1
      rw [if_neg hne]
      simp
    | cons s2 rest2 =>
      rw [intercalateSlash]
      have hassoc : (s ++ '/' :: intercalateSlash (s2 :: rest2)) ++ slashes
          = s ++ ('/' :: (intercalateSlash (s2 :: rest2) ++ slashes)) := by
        simp
      rw [splitSlashChars, hassoc, splitSlashAux_consume s (hg s (by simp)).2]
      have hne : s.reverse ++ ([] : List Char) ≠ [] := by
        simpa using (hg s (by simp)).1
      rw [splitSlashAux, if_neg hne]
      have := ih (fun u hu => hg u (by simp [hu]))
      rw [splitSlashChars] at this
      rw [this]
      simp
      intro hcon
      cases hcon

theorem processDots_nil (isAbs : Bool) (stack : List (List Char)) :
    processDots isAbs stack [] = stack.reverse := by
  rw [processDots.eq_def]

theorem processDots_cons (isAbs : Bool) (stack : List (List Char)) (s : List Char)
    (rest : List (List Char)) :
    processDots isAbs stack (s :: rest)
      = if s = ['.'] then processDots isAbs stack rest
        else if s = ['.', '.'] then
          (match stack with
           | top :: stack' =>
             if top = ['.', '.'] then processDots isAbs (s :: top :: stack') rest
             else processDots isAbs stack' rest
           | [] => if isAbs then processDots isAbs [] rest else processDots isAbs [s] rest)
        else processDots isAbs (s :: stack) rest := by
  rw [processDots.eq_def]

theorem processDots_push (isAbs : Bool) (stack : List (List Char)) (s : List Char)
    (rest : List (List Char)) (h1 : s ≠ ['.']) (h2 : s ≠ ['.', '.']) :
    processDots isAbs stack (s :: rest) = processDots isAbs (s :: stack) rest := by
  rw [processDots_cons, if_neg h1, if_neg h2]

theorem processDots_nodots (segs : List (List Char))
    (h : ∀ s ∈ segs, s ≠ ['.'] ∧ s ≠ ['.', '.']) (isAbs : Bool) :
    ∀ stack, processDots isAbs stack segs = stack.reverse ++ segs := by
  induction segs with
  | nil => intro stack; rw [processDots_nil]; simp
  | cons s rest ih =>
    intro stack
    rw [processDots_push isAbs stack s rest (h s (by simp)).1 (h s (by simp)).2,
      ih (fun u hu => h u (by simp [hu]))]
    simp


theorem intercalateSlash_cons2 (s s2 : List Char) (rest2 : List (List Char)) :
    intercalateSlash (s :: s2 :: rest2) = s ++ '/' :: intercalateSlash (s2 :: rest2) := by
  rw [intercalateSlash]
  simp

theorem intercalateSlash_ne_nil (s : List Char) (rest : List (List Char)) (hs : s ≠ []) :
    intercalateSlash (s :: rest) ≠ [] := by
  cases rest with
  | nil => simpa [intercalateSlash] using hs
  | cons s2 rest2 =>
    rw [intercalateSlash_cons2]
    simp [hs]

theorem getLast?_append_ne (a b : List Char) (hb : b ≠ []) :
    (a ++ b).getLast? = b.getLast? := by
  rw [List.getLast?_append]
  rw [List.getLast?_eq_getLast_of_ne_nil hb]
  rfl

theorem getLast?_of_no_slash (s : List Char) (h : '/' ∉ s) : s.getLast? ≠ some '/' := by
  intro hcon
  obtain ⟨hne, heq⟩ := List.mem_getLast?_eq_getLast (show '/' ∈ s.getLast? from hcon)
  exact h (heq ▸ List.getLast_mem hne)

theorem intercalateSlash_getLast (segs : List (List Char)) (hg : goodSegs segs)
    (hne : segs ≠ []) : (intercalateSlash segs).getLast? ≠ some '/' := by
  induction segs with
  | nil => exact absurd rfl hne
  | cons s rest ih =>
    cases rest with
    | nil =>
      rw [intercalateSlash]
      exact getLast?_of_no_slash s (hg s (by simp)).2
    | cons s2 rest2 =>
      rw [intercalateSlash_cons2]
      have hx : intercalateSlash (s2 :: rest2) ≠ [] :=
        intercalateSlash_ne_nil s2 rest2 (hg s2 (by simp)).1
      rw [getLast?_append_ne s _ (by simp), show ('/' :: intercalateSlash (s2 :: rest2))
          = ['/'] ++ intercalateSlash (s2 :: rest2) from rfl,
        getLast?_append_ne _ _ hx]
      exact ih (fun u hu => hg u (by simp [hu])) (by simp)

theorem stripTrailingSlashes_append_slash (l : List Char) :
    stripTrailingSlashes (l ++ ['/']) = stripTrailingSlashes l := by
  simp [stripTrailingSlashes]

theorem stripTrailingSlashes_of_getLast (l : List Char) (h : l.getLast? ≠ some '/') :
    stripTrailingSlashes l = l := by
  rw [stripTrailingSlashes]
  cases hr : l.reverse with
  | nil => simpa using congrArg List.reverse hr
  | cons c cs =>
    have hc : c ≠ '/' := by
      intro hcon
      apply h
      rw [← List.head?_reverse, hr, hcon]
      rfl
    rw [List.dropWhile_cons_of_neg (by simpa using hc), ← hr]
    simp


theorem splitSlashAux_good (l : List Char) :
    ∀ (cur : List Char), '/' ∉ cur → goodSegs (splitSlashAux cur l) := by
  induction l with
  | nil =>
    intro cur hcur s hs
    rw [splitSlashAux] at hs
    split at hs
    · simp at hs
    · rename_i hne
      simp at hs
      subst hs
      exact ⟨by simpa using hne, by simpa using hcur⟩
  | cons c cs ih =>
    intro cur hcur s hs
    by_cases hc : c = '/'
    · subst hc
      rw [splitSlashAux] at hs
      split at hs
      · exact ih [] (by simp) s hs
      · rename_i hne
        rcases List.mem_cons.mp hs with rfl | hmem
        · exact ⟨by simpa using hne, by simpa using hcur⟩
        · exact ih [] (by simp) s hmem
    · rw [splitSlashAux_char _ _ _ hc] at hs
      exact ih (c :: cur) (by simp [hcur, Ne.symm hc]) s hs

theorem splitSlash_canonical_append (p : List Char) (hne : p ≠ [])
    (hcan : p = canonicalOf p) :
    splitSlashChars (p ++ ['/', '/']) = splitSlashChars p := by
  have hgood : goodSegs (splitSlashChars p) := fun s hs => splitSlashAux_good p [] (by simp) s hs
  have hslash : ∀ c ∈ (['/', '/'] : List Char), c = '/' := by simp
  by_cases habs : p.head? = some '/'
  · have hp : p = ['/'] ++ intercalateSlash (splitSlashChars p) := by
      conv_lhs => rw [hcan]
      rw [canonicalOf, if_pos habs]
    conv_lhs => rw [hp]
    have hshape : (['/'] ++ intercalateSlash (splitSlashChars p)) ++ ['/', '/']
        = '/' :: (intercalateSlash (splitSlashChars p) ++ ['/', '/']) := by simp
    rw [hshape, splitSlashChars, splitSlashAux, if_pos rfl]
    exact splitSlash_render (splitSlashChars p) hgood ['/', '/'] hslash
  · have hp : p = intercalateSlash (splitSlashChars p) := by
      conv_lhs => rw [hcan]
      rw [canonicalOf, if_neg habs]
      simp
    conv_lhs => rw [hp]
    exact splitSlash_render (splitSlashChars p) hgood ['/', '/'] hslash


theorem posixNormalize_canonical (p : List Char) (hne : p ≠ [])
    (hcan : p = canonicalOf p)
    (hdots : ∀ seg ∈ splitSlashChars p, seg ≠ ['.'] ∧ seg ≠ ['.', '.']) :
    posixNormalizeChars (p ++ ['/', '/'])
      = if splitSlashChars p = [] then ['/'] else p ++ ['/'] := by
  have hgood : goodSegs (splitSlashChars p) := fun s hs => splitSlashAux_good p [] (by simp) s hs
  have hl : p ++ ['/', '/'] ≠ [] := by simp
  have hhead : (p ++ ['/', '/']).head? = p.head? := by
    cases p with
    | nil => exact absurd rfl hne
    | cons c cs => rfl
  have htrail : (p ++ ['/', '/']).getLast? = some '/' := by
    rw [getLast?_append_ne _ _ (by simp)]
    rfl
  rw [posixNormalizeChars, if_neg hl]
  simp only [hhead, htrail, splitSlash_canonical_append p hne hcan,
    processDots_nodots (splitSlashChars p) hdots _ [], List.reverse_nil, List.nil_append]
  cases hsegs : splitSlashChars p with
  | nil =>
    by_cases habs : p.head? = some '/'
    · rw [if_pos rfl, if_pos habs]
      simp [intercalateSlash]
    · exfalso
      apply hne
      rw [hcan, canonicalOf, if_neg habs, hsegs]
      rfl
  | cons s rest =>
    have hx : intercalateSlash (s :: rest) ≠ [] :=
      intercalateSlash_ne_nil s rest (hgood s (by rw [hsegs]; simp)).1
    have hcore : (if p.head? = some '/' then ['/'] else []) ++ intercalateSlash (s :: rest)
        = p := by
      conv_rhs => rw [hcan]
      rw [canonicalOf, hsegs]
    have hlast : p.getLast? ≠ some '/' := by
      conv_lhs => rw [hcan]
      rw [canonicalOf, hsegs]
      rw [getLast?_append_ne _ _ hx]
      exact intercalateSlash_getLast (s :: rest)
        (fun u hu => hgood u (by rw [hsegs]; exact hu)) (by simp)
    have hcoreif : (if (if p.head? = some '/' then ['/'] else [])
          ++ intercalateSlash (s :: rest) = [] then ['.']
        else (if p.head? = some '/' then ['/'] else []) ++ intercalateSlash (s :: rest))
        = p := by
      rw [if_neg (by rw [hcore]; exact hne), hcore]
    rw [hcoreif, if_neg (show ¬ (s :: rest = []) by simp)]
    split
    · rfl
    · rename_i hcond
      exfalso
      apply hcond
      first
        | exact ⟨rfl, hlast⟩
        | exact hlast
        | simp [hlast]


theorem canonical_root (p : List Char) (hne : p ≠ []) (hcan : p = canonicalOf p)
    (hsegs : splitSlashChars p = []) : p = ['/'] := by
  by_cases habs : p.head? = some '/'
  · rw [hcan, canonicalOf, if_pos habs, hsegs]
    rfl
  · exfalso
    apply hne
    rw [hcan, canonicalOf, if_neg habs, hsegs]
    rfl

theorem canonical_getLast_ne (p : List Char) (hcan : p = canonicalOf p)
    (s : List Char) (rest : List (List Char)) (hsegs : splitSlashChars p = s :: rest) :
    p.getLast? ≠ some '/' := by
  have hgood : goodSegs (splitSlashChars p) := fun u hu => splitSlashAux_good p [] (by simp) u hu
  have hx : intercalateSlash (s :: rest) ≠ [] :=
    intercalateSlash_ne_nil s rest (hgood s (by rw [hsegs]; simp)).1
  conv_lhs => rw [hcan]
  rw [canonicalOf, hsegs, getLast?_append_ne _ _ hx]
  exact intercalateSlash_getLast (s :: rest)
    (fun u hu => hgood u (by rw [hsegs]; exact hu)) (by simp)

theorem joinAndCollapse_root (p : String) (h : CanonicalPath p) :
    joinAndCollapse p "/" = p := by
  obtain ⟨hne, hcan, hdots⟩ := h
  have hjoin : posixJoinChars p.data "/".data = posixNormalizeChars (p.data ++ ['/', '/']) := by
    rw [posixJoinChars]
    have hparts : ([p.data, "/".data].filter (· ≠ [])) = [p.data, ['/']] := by
      simp [hne]
    rw [hparts, if_neg (by simp)]
    rfl
  rw [joinAndCollapse]
  simp only [hjoin, posixNormalize_canonical p.data hne hcan hdots]
  cases hsegs : splitSlashChars p.data with
  | nil =>
    have hp : p.data = ['/'] := canonical_root p.data hne hcan hsegs
    rw [if_pos rfl]
    have hstrip : stripTrailingSlashes ['/'] = [] := by decide
    rw [hstrip, if_pos rfl]
    cases p with
    | mk d =>
      simp only at hp
      rw [hp]
  | cons s rest =>
    have hlast := canonical_getLast_ne p.data hcan s rest hsegs
    rw [if_neg (show ¬ (s :: rest = []) by simp), stripTrailingSlashes_append_slash,
      stripTrailingSlashes_of_getLast _ hlast, if_neg hne]


theorem hasDoubleSlash_cons2 (a b : Char) (rest : List Char) :
    hasDoubleSlash (a :: b :: rest) = ((a == '/' && b == '/') || hasDoubleSlash (b :: rest)) := by
  rw [hasDoubleSlash]

theorem hds_noslash (s : List Char) (h : '/' ∉ s) : hasDoubleSlash s = false := by
  induction s with
  | nil => rfl
  | cons c cs ih =>
    cases cs with
    | nil => rfl
    | cons d ds =>
      rw [hasDoubleSlash_cons2]
      have hc : ¬ (c = '/') := fun hh => h (by simp [hh])
      simp only [Bool.or_eq_false_iff]
      exact ⟨by simp [hc], ih (fun hh => h (by simp [hh]))⟩

theorem hds_append (a b : List Char) (ha : hasDoubleSlash a = false)
    (hb : hasDoubleSlash b = false)
    (hmid : a.getLast? ≠ some '/' ∨ b.head? ≠ some '/') :
    hasDoubleSlash (a ++ b) = false := by
  induction a with
  | nil => exact hb
  | cons x xs ih =>
    cases xs with
    | nil =>
      cases b with
      | nil => rfl
      | cons y ys =>
        rw [List.cons_append, List.nil_append, hasDoubleSlash_cons2]
        simp only [Bool.or_eq_false_iff]
        refine ⟨?_, hb⟩
        simp only [Bool.and_eq_false_iff, beq_eq_false_iff_ne, ne_eq]
        rcases hmid with hx | hy
        · simp only [List.getLast?_singleton] at hx
          exact Or.inl (fun hh => hx (by rw [hh]))
        · simp only [List.head?_cons] at hy
          exact Or.inr (fun hh => hy (by rw [hh]))
    | cons x2 rest =>
      rw [hasDoubleSlash_cons2] at ha
      rw [List.cons_append, List.cons_append, hasDoubleSlash_cons2]
      simp only [Bool.or_eq_false_iff] at ha ⊢
      refine ⟨ha.1, ?_⟩
      have hmid2 : (x2 :: rest).getLast? ≠ some '/' ∨ b.head? ≠ some '/' := by
        rcases hmid with hx | hy
        · left
          intro hcon
          apply hx
          rw [show ((x :: x2 :: rest).getLast? : Option Char) = (x2 :: rest).getLast? from
            getLast?_append_ne [x] (x2 :: rest) (by simp)]
          exact hcon
        · exact Or.inr hy
      exact ih ha.2 hmid2

theorem intercalateSlash_head (s : List Char) (rest : List (List Char)) (hs : s ≠ []) :
    (intercalateSlash (s :: rest)).head? = s.head? := by
  cases rest with
  | nil => rfl
  | cons s2 rest2 =>
    rw [intercalateSlash_cons2]
    cases s with
    | nil => exact absurd rfl hs
    | cons c cs => rfl

theorem head?_of_no_slash (s : List Char) (hne : s ≠ []) (h : '/' ∉ s) :
    s.head? ≠ some '/' := by
  cases s with
  | nil => exact absurd rfl hne
  | cons c cs =>
    simp only [List.head?_cons]
    intro hcon
    injection hcon with hc
    exact h (by simp [hc])

theorem hds_intercalate (segs : List (List Char)) (hg : goodSegs segs) :
    hasDoubleSlash (intercalateSlash segs) = false := by
  induction segs with
  | nil => rfl
  | cons s rest ih =>
    cases rest with
    | nil =>
      rw [intercalateSlash]
      exact hds_noslash s (hg s (by simp)).2
    | cons s2 rest2 =>
      rw [intercalateSlash_cons2]
      refine hds_append s ('/' :: intercalateSlash (s2 :: rest2))
        (hds_noslash s (hg s (by simp)).2) ?_
        (Or.inl (getLast?_of_no_slash s (hg s (by simp)).2))
      cases hx : intercalateSlash (s2 :: rest2) with
      | nil => rfl
      | cons y ys =>
        rw [hasDoubleSlash_cons2]
        simp only [Bool.or_eq_false_iff]
        have hhead : (intercalateSlash (s2 :: rest2)).head? = s2.head? :=
          intercalateSlash_head s2 rest2 (hg s2 (by simp)).1
        rw [hx] at hhead
        simp only [List.head?_cons] at hhead
        have hs2 : s2.head? ≠ some '/' :=
          head?_of_no_slash s2 (hg s2 (by simp)).1 (hg s2 (by simp)).2
        have hy : ¬ (y = '/') := fun hcon => hs2 (by rw [← hhead, hcon])
        constructor
        · simp [hy]
        · rw [← hx]
          exact ih (fun u hu => hg u (by simp [hu]))


theorem processDots_good (segs : List (List Char)) (isAbs : Bool) :
    ∀ stack, goodSegs segs → goodSegs stack → goodSegs (processDots isAbs stack segs) := by
  induction segs with
  | nil =>
    intro stack _ hstack
    rw [processDots_nil]
    intro s hs
    exact hstack s (by simpa using hs)
  | cons seg rest ih =>
    intro stack hsegs hstack
    have hrest : goodSegs rest := fun u hu => hsegs u (by simp [hu])
    have hseg := hsegs seg (by simp)
    rw [processDots_cons]
    by_cases h1 : seg = ['.']
    · rw [if_pos h1]
      exact ih stack hrest hstack
    · rw [if_neg h1]
      by_cases h2 : seg = ['.', '.']
      · rw [if_pos h2]
        cases stack with
        | nil =>
          show goodSegs (if isAbs = true then processDots isAbs [] rest
            else processDots isAbs [seg] rest)
          split
          · exact ih [] hrest (by intro u hu; simp at hu)
          · refine ih [seg] hrest ?_
            intro u hu
            simp only [List.mem_singleton] at hu
            subst hu
            exact hseg
        | cons top stack' =>
          show goodSegs (if top = ['.', '.'] then processDots isAbs (seg :: top :: stack') rest
            else processDots isAbs stack' rest)
          have htop := hstack top (by simp)
          split
          · refine ih (seg :: top :: stack') hrest ?_
            intro u hu
            rcases List.mem_cons.mp hu with rfl | hu2
            · exact hseg
            · exact hstack u hu2
          · exact ih stack' hrest (fun u hu => hstack u (by simp [hu]))
      · rw [if_neg h2]
        refine ih (seg :: stack) hrest ?_
        intro u hu
        rcases List.mem_cons.mp hu with rfl | hu2
        · exact hseg
        · exact hstack u hu2

theorem hds_render (c : Prop) [Decidable c] (segs : List (List Char)) (hg : goodSegs segs) :
    hasDoubleSlash ((if c then ['/'] else []) ++ intercalateSlash segs) = false := by
  by_cases hc : c
  · rw [if_pos hc]
    refine hds_append ['/'] _ rfl (hds_intercalate segs hg) ?_
    right
    cases segs with
    | nil => simp [intercalateSlash]
    | cons s rest =>
      have h1 := (hg s (by simp)).1
      have h2 := (hg s (by simp)).2
      rw [intercalateSlash_head s rest h1]
      exact head?_of_no_slash s h1 h2
  · rw [if_neg hc, List.nil_append]
    exact hds_intercalate segs hg

theorem hds_normalize (l : List Char) :
    hasDoubleSlash (posixNormalizeChars l) = false := by
  rw [posixNormalizeChars]
  split
  · rfl
  · dsimp only
    have hgood : goodSegs (processDots (decide (l.head? = some '/')) [] (splitSlashChars l)) :=
      processDots_good (splitSlashChars l) _ []
        (fun u hu => splitSlashAux_good l [] (by simp) u hu)
        (by intro u hu; simp at hu)
    by_cases habs : l.head? = some '/'
    · have hcore0 : hasDoubleSlash (['/'] ++ intercalateSlash
          (processDots (decide (l.head? = some '/')) [] (splitSlashChars l))) = false := by
        have h0 := hds_render (l.head? = some '/')
          (processDots (decide (l.head? = some '/')) [] (splitSlashChars l)) hgood
        rwa [if_pos habs] at h0
      rw [if_pos habs]
      have hne2 : ('/' :: intercalateSlash
          (processDots (decide (l.head? = some '/')) [] (splitSlashChars l)) : List Char)
          ≠ [] := by simp
      rw [show (['/'] ++ intercalateSlash
          (processDots (decide (l.head? = some '/')) [] (splitSlashChars l)) : List Char)
          = '/' :: intercalateSlash
          (processDots (decide (l.head? = some '/')) [] (splitSlashChars l)) from rfl] at hcore0 ⊢
      rw [if_neg hne2]
      split
      · rename_i hcond
        exact hds_append _ ['/'] hcore0 rfl (Or.inl hcond.2)
      · exact hcore0
    · have hcore0 : hasDoubleSlash (intercalateSlash
          (processDots (decide (l.head? = some '/')) [] (splitSlashChars l))) = false :=
        hds_intercalate _ hgood
      rw [if_neg habs, List.nil_append]
      by_cases hXe : intercalateSlash
          (processDots (decide (l.head? = some '/')) [] (splitSlashChars l)) = []
      · rw [if_pos hXe]
        split <;> rfl
      · rw [if_neg hXe]
        split
        · rename_i hcond
          exact hds_append _ ['/'] hcore0 rfl (Or.inl hcond.2)
        · exact hcore0


theorem hds_prefix (a b : List Char) (h : hasDoubleSlash (a ++ b) = false) :
    hasDoubleSlash a = false := by
  induction a with
  | nil => rfl
  | cons x xs ih =>
    cases xs with
    | nil => rfl
    | cons x2 rest =>
      rw [List.cons_append, List.cons_append, hasDoubleSlash_cons2] at h
      simp only [Bool.or_eq_false_iff] at h
      rw [hasDoubleSlash_cons2]
      simp only [Bool.or_eq_false_iff]
      refine ⟨h.1, ih ?_⟩
      rw [List.cons_append]
      exact h.2

theorem strip_decomp (l : List Char) : l = stripTrailingSlashes l ++ (l.reverse.takeWhile (· = '/')).reverse := by
  rw [stripTrailingSlashes, ← List.reverse_append, List.takeWhile_append_dropWhile,
    List.reverse_reverse]

theorem joinAndCollapse_noDouble (a b : String) :
    hasDoubleSlash (joinAndCollapse a b).data = false := by
  rw [joinAndCollapse]
  split
  · rfl
  · have hj : hasDoubleSlash (posixJoinChars a.data b.data) = false := by
      rw [posixJoinChars]
      split
      · rfl
      · exact hds_normalize _
    have hdec := strip_decomp (posixJoinChars a.data b.data)
    exact hds_prefix _ _ (hdec ▸ hj)


/-! ### Claim C8 -/

/-- C8: the merge's prefix-joining operation satisfies: joining a group
prefix in the data model's normal form with the root path `"/"` returns
the prefix unchanged; joining `"/"` with `"/"` yields `"/"`; no joined
path ever contains a doubled separator; and an empty or whole-root
stripped result collapses to `"/"`. -/
theorem claim8_join_collapse (p : String) (hp : CanonicalPath p) :
    joinAndCollapse p "/" = p
    ∧ joinAndCollapse "/" "/" = "/"
    ∧ (∀ a b : String, hasDoubleSlash (joinAndCollapse a b).data = false)
    ∧ (∀ a b : String, stripTrailingSlashes (posixJoinChars a.data b.data) = [] →
        joinAndCollapse a b = "/") := by
  refine ⟨joinAndCollapse_root p hp, by decide, joinAndCollapse_noDouble, ?_⟩
  intro a b h
  rw [joinAndCollapse, if_pos h]

/-- C8 witness: the theorem at the concrete canonical prefixes `"/user"`
and `"/a/b"`. -/
theorem claim8_witness :
    joinAndCollapse "/user" "/" = "/user"
    ∧ joinAndCollapse "/a/b" "/" = "/a/b" := by
  constructor
  · exact (claim8_join_collapse "/user" (by refine ⟨by decide, by decide, by decide⟩)).1
  · exact (claim8_join_collapse "/a/b" (by refine ⟨by decide, by decide, by decide⟩)).1

end HonoDocs
